import Mathlib

/-!
# Verification of the PsychSoc Speed-Friending matching core

A shallow embedding, in Lean 4, of the algorithmic core of the
speed-friending pairing scripts:

* `Match` embeds `match.py` (the round-robin / circle-method rotation
  scheduler `generate_rounds`).
* `MbtiMatch` embeds `mbti_match.py` (the similarity function
  `mbti_similarity`, the candidate enumeration
  `generate_candidate_pairs`, the greedy matcher `build_round`,
  the history update `update_past_pairs` and the multi-round driver
  `generate_rounds`).
* `ConfigLoader` embeds the validation logic of
  `config_loader.read_participants_from_csv` over already-parsed CSV rows.
* `VerifyMatches` embeds `verify_matches.py` (the line patterns, the pair
  collection over scanned files and `find_duplicates`), including a small
  backtracking matcher that gives semantics to the three regular
  expressions in `PAIR_LINE_PATTERNS`.

Python `frozenset({id1, id2})` keys (sets of at most two strings) are
represented by canonically ordered pairs (`mkKey`), Python dicts by
association lists that preserve insertion order, and Python sets by lists
queried only through membership.  File system and CSV input/output is
abstracted away: the corresponding functions take the already-read data
(lists of rows, lists of files with their lines) as arguments.
-/

namespace PyStr

/-- The characters stripped by Python `str.strip()` (ASCII whitespace;
the embedding restricts attention to ASCII text). -/
def wsChar (c : Char) : Bool :=
  c == ' ' || c == '\t' || c == '\n' || c == '\r' || c == '\x0b' || c == '\x0c'

/-- Python `str.strip()` on a list of characters: drop leading and
trailing whitespace. -/
def pyStrip (l : List Char) : List Char :=
  ((l.dropWhile wsChar).reverse.dropWhile wsChar).reverse

/-- Python `str.strip()` on a `String`. -/
def pyStripS (s : String) : String :=
  ⟨pyStrip s.data⟩

/-- Python `str.upper()` (ASCII letters; the embedding restricts
attention to ASCII text). -/
def pyUpperS (s : String) : String :=
  ⟨s.data.map Char.toUpper⟩

/-- Python `str.lower()` (ASCII letters). -/
def pyLowerS (s : String) : String :=
  ⟨s.data.map Char.toLower⟩

end PyStr

/-- Lexicographic comparison of character lists (structurally recursive,
so that it reduces inside the kernel). -/
def charListLe : List Char → List Char → Bool
  | [], _ => true
  | _ :: _, [] => false
  | a :: as, b :: bs => if a = b then charListLe as bs else decide (a < b)

/-- Lexicographic comparison of strings. -/
def strLe (a b : String) : Bool := charListLe a.data b.data

/-- Canonical representation of the Python `frozenset({a, b})` used as a
pair key: the two strings in nondecreasing lexicographic order.  Two such
frozensets are equal exactly when the canonical pairs are equal. -/
def mkKey (a b : String) : String × String :=
  if strLe a b then (a, b) else (b, a)

namespace Match

/-! ## `match.py` — the round-robin rotation scheduler

`generate_rounds(ids, num_rounds)` fixes the first id, rotates the ring of
remaining ids (last element moved to the front after each round) and pairs
position `i` with position `n - 1 - i` of `[fixed] + ring`. -/

variable {α : Type} [Inhabited α]

/-- One round of pairings from the arrangement `current` of the `n`
participants: pair `current[i]` with `current[n - 1 - i]` for
`i < n / 2` (the loop body of `match.generate_rounds`). -/
def genPairs (current : List α) (n : Nat) : List (α × α) :=
  (List.range (n / 2)).map (fun i => (current.getD i default, current.getD (n - 1 - i) default))

/-- `others = [last] + others[:-1]`: move the last element of the
rotating ring to the front. -/
def rotateOthers (l : List α) : List α :=
  match l.getLast? with
  | none => l
  | some last => last :: l.dropLast

/-- The round-generation loop of `match.generate_rounds`: produce `k`
rounds, rotating `others` between rounds. -/
def roundsAux (fixed : α) : Nat → List α → Nat → List (List (α × α))
  | 0, _, _ => []
  | k + 1, others, n =>
    genPairs (fixed :: others) n :: roundsAux fixed k (rotateOthers others) n

/-- `match.generate_rounds(ids, num_rounds)`: round-robin (circle method)
pairings.  Returns `[]` for fewer than two ids; otherwise clamps the
requested number of rounds at `len(ids) - 1` and runs the rotation loop
with `fixed = ids[0]` and `others = ids[1:]`. -/
def generate_rounds (ids : List α) (num_rounds : Nat) : List (List (α × α)) :=
  let n := ids.length
  if n < 2 then []
  else
    let R := if num_rounds > n - 1 then n - 1 else num_rounds
    roundsAux (ids.getD 0 default) R ids.tail n

end Match

namespace MbtiMatch

/-! ## `mbti_match.py` — the similarity-driven greedy matcher -/

/-- The `Person` dataclass: participant id and MBTI code. -/
structure Person where
  pid : String
  mbti : String
deriving DecidableEq

instance : Inhabited Person := ⟨⟨"", ""⟩⟩

/-- The normalization `(x or "").upper().strip()` applied by
`mbti_similarity` to each argument. -/
def normMbti (s : String) : String :=
  PyStr.pyStripS (PyStr.pyUpperS s)

/-- `mbti_similarity(a, b)`: count positions with identical characters
after uppercasing and stripping; 0 unless both normalized codes have
exactly 4 characters. -/
def mbti_similarity (a b : String) : Nat :=
  let a' := normMbti a
  let b' := normMbti b
  if a'.length ≠ 4 ∨ b'.length ≠ 4 then 0
  else (a'.data.zip b'.data).countP (fun p => p.1 == p.2)

/-- The sort key of `generate_candidate_pairs`: descending similarity
score (`sort(key=lambda t: t[0], reverse=True)`, a stable sort). -/
def candLE (x y : Nat × Person × Person) : Prop := y.1 ≤ x.1

instance : DecidableRel candLE :=
  fun x y => inferInstanceAs (Decidable (y.1 ≤ x.1))

instance : IsTotal (Nat × Person × Person) candLE :=
  ⟨fun x y => Nat.le_total y.1 x.1⟩

instance : IsTrans (Nat × Person × Person) candLE :=
  ⟨fun _ _ _ h1 h2 => Nat.le_trans h2 h1⟩

/-- The nested-loop enumeration (`for i in range(n): for j in
range(i+1, n)`) of candidate pairs not present in `past_pairs`, with
their similarity scores, in enumeration order. -/
def candidateEnum (people : List Person) (past : List (String × String)) :
    List (Nat × Person × Person) :=
  (List.range people.length).flatMap (fun i =>
    (List.range' (i + 1) (people.length - (i + 1))).filterMap (fun j =>
      let p1 := people.getD i ⟨"", ""⟩
      let p2 := people.getD j ⟨"", ""⟩
      if mkKey p1.pid p2.pid ∈ past then none
      else some (mbti_similarity p1.mbti p2.mbti, p1, p2)))

/-- `generate_candidate_pairs(people, past_pairs)`: the enumeration above,
stably sorted by descending score (Python's `list.sort` is stable; any
stable sort yields the same list, here insertion sort). -/
def generate_candidate_pairs (people : List Person) (past : List (String × String)) :
    List (Nat × Person × Person) :=
  List.insertionSort candLE (candidateEnum people past)

/-- The candidate walk of `build_round`: fold over the sorted candidates,
accumulating `(used_ids, round_pairs)`; accept a pair when neither pid is
used yet.  The Python `used_ids` set is modeled as the list of used pids
(queried only through membership). -/
def walkCandidates (cs : List (Nat × Person × Person)) :
    List String × List (Person × Person) :=
  cs.foldl
    (fun acc c =>
      if c.2.1.pid ∈ acc.1 ∨ c.2.2.pid ∈ acc.1 then acc
      else (acc.1 ++ [c.2.1.pid, c.2.2.pid], acc.2 ++ [(c.2.1, c.2.2)]))
    (([] : List String), ([] : List (Person × Person)))

/-- `build_round(people, past_pairs)`: walk the sorted candidates and
return the accepted pairs and the leftover people. -/
def build_round (people : List Person) (past : List (String × String)) :
    List (Person × Person) × List Person :=
  if people.length < 2 then ([], people)
  else
    ((walkCandidates (generate_candidate_pairs people past)).2,
     people.filter (fun p =>
       decide (p.pid ∉ (walkCandidates (generate_candidate_pairs people past)).1)))

/-- `update_past_pairs(past_pairs, new_pairs)`: add the frozenset key of
every new pair to the history (set semantics: skip keys already
present). -/
def update_past_pairs (past : List (String × String)) (new_pairs : List (Person × Person)) :
    List (String × String) :=
  new_pairs.foldl
    (fun acc pr => if mkKey pr.1.pid pr.2.pid ∈ acc then acc else acc ++ [mkKey pr.1.pid pr.2.pid])
    past

/-- The `Person` list built by `mbti generate_rounds`:
`Person(pid=pid, mbti=str(participants.get(pid, "")).strip())` in input
order.  `participants` models the id-to-code dict as an association list
with unique keys. -/
def buildPeople (scrambled_ids : List String) (participants : List (String × String)) :
    List Person :=
  scrambled_ids.map (fun pid =>
    ⟨pid, PyStr.pyStripS (((participants.find? (fun kv => kv.1 == pid)).map Prod.snd).getD "")⟩)

/-- The loop of `mbti generate_rounds`: up to `num_rounds` iterations;
stop early as soon as a round comes back empty; otherwise record the id
pairs and fold the round into the history. -/
def roundsLoop : Nat → List Person → List (String × String) → List (List (String × String))
  | 0, _, _ => []
  | k + 1, people, past =>
    if (build_round people past).1 = [] then []
    else (build_round people past).1.map (fun pr => (pr.1.pid, pr.2.pid))
      :: roundsLoop k people (update_past_pairs past (build_round people past).1)

/-- `mbti_match.generate_rounds(scrambled_ids, num_rounds, participants)`. -/
def generate_rounds (scrambled_ids : List String) (num_rounds : Nat)
    (participants : List (String × String)) : List (List (String × String)) :=
  roundsLoop num_rounds (buildPeople scrambled_ids participants) []

end MbtiMatch

namespace ConfigLoader

/-! ## `config_loader.py` — roster validation

CSV reading is I/O; the embedding starts from the parsed rows (the
`(row[id], row[name])` pairs in file order) and models the row filtering,
dict building and the validation that follows. -/

/-- Assignment `participants[pid] = name` on an insertion-ordered dict:
overwrite in place if the key exists, else append. -/
def dictInsert (acc : List (String × String)) (pid name : String) :
    List (String × String) :=
  if acc.any (fun kv => kv.1 == pid) then
    acc.map (fun kv => if kv.1 == pid then (pid, name) else kv)
  else acc ++ [(pid, name)]

/-- The row-reading loop of `read_participants_from_csv`: strip id and
name, skip incomplete rows, build the insertion-ordered dict. -/
def buildParticipants (rows : List (String × String)) : List (String × String) :=
  rows.foldl
    (fun acc row =>
      let pid := PyStr.pyStripS row.1
      let name := PyStr.pyStripS row.2
      if pid = "" ∨ name = "" then acc
      else dictInsert acc pid name)
    []

/-- The validation at the end of `read_participants_from_csv`: fail on an
empty roster or an odd participant count (the `ValueError`s become
`Except.error` values carrying the same message text). -/
def validateParticipants (filename : String) (participants : List (String × String)) :
    Except String (List (String × String)) :=
  if participants.isEmpty then
    Except.error (filename ++ " contains no valid participants.")
  else if participants.length % 2 ≠ 0 then
    Except.error ("Number of participants must be even, got " ++ toString participants.length ++ ".")
  else Except.ok participants

/-- `read_participants_from_csv`, from the parsed data rows. -/
def read_participants_from_csv (filename : String) (rows : List (String × String)) :
    Except String (List (String × String)) :=
  validateParticipants filename (buildParticipants rows)

end ConfigLoader

namespace VerifyMatches

/-! ## `verify_matches.py` — the duplicate verifier -/

/-- Abstract syntax of the fragment of regular expressions used by
`PAIR_LINE_PATTERNS`: `cls` is a one-character class, `opt` a greedy `?`,
`star` a greedy `*`, `lazyPlus` a non-greedy `+?`, `grp` a numbered
capturing group and `eol` the `$` anchor. -/
inductive RE where
  | eps : RE
  | cls : (Char → Bool) → RE
  | cat : RE → RE → RE
  | alt : RE → RE → RE
  | opt : RE → RE
  | star : RE → RE
  | lazyPlus : RE → RE
  | grp : Nat → RE → RE
  | eol : RE

/-- Captured group spans: (group index, start, stop). -/
abbrev Caps := List (Nat × Nat × Nat)

/-- Backtracking matcher in continuation-passing style — the semantics of
Python `re` on this fragment: alternatives are tried left to right,
greedy operators prefer to consume, the non-greedy `+?` prefers to stop.
`fuel` strictly decreases at every call and is budgeted generously in
`reFullMatch`, so it never runs out on the patterns in use. -/
def reRun (s : List Char) : Nat → RE → Nat → Caps → (Nat → Caps → Option Caps) → Option Caps
  | 0, _, _, _, _ => none
  | fuel + 1, r, pos, caps, k =>
    match r with
    | .eps => k pos caps
    | .cls p =>
      match s[pos]? with
      | some c => if p c then k (pos + 1) caps else none
      | none => none
    | .cat r1 r2 => reRun s fuel r1 pos caps (fun q c => reRun s fuel r2 q c k)
    | .alt r1 r2 =>
      match reRun s fuel r1 pos caps k with
      | some res => some res
      | none => reRun s fuel r2 pos caps k
    | .opt r1 =>
      match reRun s fuel r1 pos caps k with
      | some res => some res
      | none => k pos caps
    | .star r1 =>
      match reRun s fuel r1 pos caps
          (fun q c => if pos < q then reRun s fuel (.star r1) q c k else none) with
      | some res => some res
      | none => k pos caps
    | .lazyPlus r1 =>
      reRun s fuel r1 pos caps (fun q c =>
        match k q c with
        | some res => some res
        | none => if pos < q then reRun s fuel (.lazyPlus r1) q c k else none)
    | .grp i r1 => reRun s fuel r1 pos caps (fun q c => k q ((i, pos, q) :: c))
    | .eol => if pos = s.length then k pos caps else none

/-- Syntactic size of a regex, used to budget the matcher fuel. -/
def reSize : RE → Nat
  | .eps => 1
  | .cls _ => 1
  | .cat a b => reSize a + reSize b + 1
  | .alt a b => reSize a + reSize b + 1
  | .opt a => reSize a + 1
  | .star a => reSize a + 1
  | .lazyPlus a => reSize a + 1
  | .grp _ a => reSize a + 1
  | .eol => 1

/-- Run a pattern anchored at the start of `s` (Python `pattern.match`);
the `$` anchors of the patterns in use are explicit `eol` nodes. -/
def reFullMatch (r : RE) (s : List Char) : Option Caps :=
  reRun s ((reSize r + 2) * (s.length + 2)) r 0 [] (fun _ c => some c)

/-- Text of captured group `i` (first span recorded for `i`, i.e. the
latest completed match of that group). -/
def capStr (s : List Char) (caps : Caps) (i : Nat) : Option (List Char) :=
  (caps.find? (fun c => c.1 == i)).map (fun c => (s.drop c.2.1).take (c.2.2 - c.2.1))

/-- `\d` (ASCII digits). -/
def digitChar (c : Char) : Bool := 48 ≤ c.toNat && c.toNat ≤ 57

/-- `[^|]` -/
def notPipe (c : Char) : Bool := !(c == '|')

/-- `[^\-&|]` -/
def bulletCls (c : Char) : Bool := !(c == '-' || c == '&' || c == '|')

/-- `[^\-|#]` -/
def dashCls (c : Char) : Bool := !(c == '-' || c == '|' || c == '#')

/-- `\s*` -/
def reWS : RE := .star (.cls PyStr.wsChar)

/-- A literal character. -/
def reLit (c : Char) : RE := .cls (fun d => d == c)

/-- Concatenation of a list of regexes. -/
def reCats (l : List RE) : RE := l.foldr RE.cat RE.eps

/-- Markdown table row with 2 id columns, optionally preceded by a
numeric index cell:
`^\s*\|\s*(?:\d+\s*\|\s*)?([^|]+?)\s*\|\s*([^|]+?)\s*\|\s*$` -/
def pat1 : RE := reCats
  [reWS, reLit '|', reWS,
   .opt (reCats [.cat (.cls digitChar) (.star (.cls digitChar)), reWS, reLit '|', reWS]),
   .grp 1 (.lazyPlus (.cls notPipe)), reWS, reLit '|', reWS,
   .grp 2 (.lazyPlus (.cls notPipe)), reWS, reLit '|', reWS, .eol]

/-- Bullet line such as `- alice & bob`:
`^\s*[-*]\s+([^\-&|]+?)\s*(?:&|-|vs|\|)\s*([^\-&|]+?)\s*$` with
IGNORECASE (which only affects the literal `vs`). -/
def pat2 : RE := reCats
  [reWS, .cls (fun c => c == '-' || c == '*'),
   .cat (.cls PyStr.wsChar) (.star (.cls PyStr.wsChar)),
   .grp 1 (.lazyPlus (.cls bulletCls)), reWS,
   .alt (reLit '&') (.alt (reLit '-')
     (.alt (.cat (.cls (fun c => c == 'v' || c == 'V')) (.cls (fun c => c == 's' || c == 'S')))
       (reLit '|'))),
   reWS, .grp 2 (.lazyPlus (.cls bulletCls)), reWS, .eol]

/-- Fallback `alice - bob`: `^\s*([^\-|#]+?)\s*-\s*([^\-|#]+?)\s*$` -/
def pat3 : RE := reCats
  [reWS, .grp 1 (.lazyPlus (.cls dashCls)), reWS, reLit '-', reWS,
   .grp 2 (.lazyPlus (.cls dashCls)), reWS, .eol]

/-- The ordered list of line patterns (first match wins). -/
def PAIR_LINE_PATTERNS : List RE := [pat1, pat2, pat3]

/-- One parsed occurrence of a pair, as in the `PairOccurrence`
dataclass. -/
structure PairOccurrence where
  person1 : String
  person2 : String
  filename : String
  line_number : Nat
  line_text : String
deriving DecidableEq

/-- A markdown file presented to the verifier: its base name and its
lines (`os.walk` and file reading are abstracted into this list). -/
structure MdFile where
  name : String
  lines : List String

/-- `normalize_id(raw) = raw.strip()` -/
def normalize_id (raw : List Char) : List Char := PyStr.pyStrip raw

/-- Both captured groups of a pattern on a stripped line, if it
matches. -/
def lineGroups (r : RE) (stripped : List Char) : Option (List Char × List Char) :=
  match reFullMatch r stripped with
  | none => none
  | some caps =>
    match capStr stripped caps 1, capStr stripped caps 2 with
    | some g1, some g2 => some (g1, g2)
    | _, _ => none

/-- Try the patterns in priority order on a stripped line.  A pattern
that matches but yields an empty normalized token falls through to the
next pattern (the inner `continue` of `iter_pairs_in_file`). -/
def parseLine (stripped : List Char) : Option (String × String) :=
  PAIR_LINE_PATTERNS.findSome? (fun r =>
    match lineGroups r stripped with
    | none => none
    | some (g1, g2) =>
      let id1 := normalize_id g1
      let id2 := normalize_id g2
      if id1.isEmpty || id2.isEmpty then none
      else some (⟨id1⟩, ⟨id2⟩))

/-- `iter_pairs_in_file`: yield an occurrence for every non-empty line
matched by some pattern with two non-empty normalized tokens;
line numbers start at 1, `line_text` records the stripped line. -/
def iter_pairs_in_file (file : MdFile) : List PairOccurrence :=
  (file.lines.enumFrom 1).filterMap (fun le =>
    let stripped := PyStr.pyStrip le.2.data
    if stripped.isEmpty then none
    else (parseLine stripped).map (fun ids =>
      ⟨ids.1, ids.2, file.name, le.1, ⟨stripped⟩⟩))

/-- `all_pairs.setdefault(key, []).append(occ)` on the insertion-ordered
dict of occurrence lists. -/
def addOcc (acc : List ((String × String) × List PairOccurrence)) (occ : PairOccurrence) :
    List ((String × String) × List PairOccurrence) :=
  if acc.any (fun kv => kv.1 == mkKey occ.person1 occ.person2) then
    acc.map (fun kv =>
      if kv.1 == mkKey occ.person1 occ.person2 then (kv.1, kv.2 ++ [occ]) else kv)
  else acc ++ [(mkKey occ.person1 occ.person2, [occ])]

/-- `collect_pairs(root_dir, pattern)`: scan the files (in traversal
order), skipping `LICENSE.md` (case-insensitively) and files whose name
does not end in the extension filter; accumulate occurrences keyed by
the unordered pair of normalized tokens. -/
def collect_pairs (files : List MdFile) (ext : String) :
    List ((String × String) × List PairOccurrence) :=
  files.foldl
    (fun acc f =>
      if PyStr.pyLowerS f.name = "license.md" then acc
      else if !(ext.data.isSuffixOf f.name.data) then acc
      else (iter_pairs_in_file f).foldl addOcc acc)
    []

/-- `find_duplicates`: the entries whose occurrence list has length
greater than one. -/
def find_duplicates (all_pairs : List ((String × String) × List PairOccurrence)) :
    List ((String × String) × List PairOccurrence) :=
  all_pairs.filter (fun kv => decide (1 < kv.2.length))

end VerifyMatches

/-!
## Theorems

First the groundwork: properties of `mkKey`, then the closed form of the
rotation scheduler, then the combinatorial core of the circle method.
-/

theorem charListLe_total : ∀ (a b : List Char), charListLe a b = true ∨ charListLe b a = true := by
  intro a
  induction a with
  | nil => intro b; left; rfl
  | cons x xs ih =>
    intro b
    cases b with
    | nil => right; rfl
    | cons y ys =>
      unfold charListLe
      by_cases hxy : x = y
      · subst hxy
        simp only [if_pos rfl]
        exact ih ys
      · rw [if_neg hxy, if_neg (Ne.symm hxy)]
        rcases lt_trichotomy x y with h | h | h
        · left; exact decide_eq_true h
        · exact absurd h hxy
        · right; exact decide_eq_true h

theorem charListLe_antisymm : ∀ (a b : List Char),
    charListLe a b = true → charListLe b a = true → a = b := by
  intro a
  induction a with
  | nil =>
    intro b h1 h2
    cases b with
    | nil => rfl
    | cons y ys => exact absurd h2 (by simp [charListLe])
  | cons x xs ih =>
    intro b h1 h2
    cases b with
    | nil => exact absurd h1 (by simp [charListLe])
    | cons y ys =>
      unfold charListLe at h1 h2
      by_cases hxy : x = y
      · subst hxy
        rw [if_pos rfl] at h1 h2
        rw [ih ys h1 h2]
      · rw [if_neg hxy] at h1
        rw [if_neg (Ne.symm hxy)] at h2
        have hlt1 := of_decide_eq_true h1
        have hlt2 := of_decide_eq_true h2
        exact absurd (lt_trans hlt1 hlt2) (lt_irrefl x)

theorem strLe_total (a b : String) : strLe a b = true ∨ strLe b a = true :=
  charListLe_total a.data b.data

theorem strLe_antisymm (a b : String) (h1 : strLe a b = true) (h2 : strLe b a = true) :
    a = b := by
  cases a with
  | mk da =>
    cases b with
    | mk db =>
      have := charListLe_antisymm da db h1 h2
      rw [this]

theorem mkKey_comm (a b : String) : mkKey a b = mkKey b a := by
  unfold mkKey
  by_cases h : strLe a b
  · by_cases h' : strLe b a
    · simp [h, h', strLe_antisymm a b h h']
    · simp [h, h']
  · by_cases h' : strLe b a
    · simp [h, h']
    · rcases strLe_total a b with h2 | h2
      · exact absurd h2 h
      · exact absurd h2 h'

theorem mkKey_cases (a b : String) : mkKey a b = (a, b) ∨ mkKey a b = (b, a) := by
  unfold mkKey
  by_cases h : strLe a b <;> simp [h]

theorem mkKey_eq_iff (a b c d : String) :
    mkKey a b = mkKey c d ↔ (a = c ∧ b = d) ∨ (a = d ∧ b = c) := by
  constructor
  · intro h
    rcases mkKey_cases a b with h1 | h1 <;> rcases mkKey_cases c d with h2 | h2 <;>
      rw [h1, h2] at h <;> cases h <;> simp_all
  · intro h
    rcases h with ⟨h1, h2⟩ | ⟨h1, h2⟩
    · rw [h1, h2]
    · rw [h1, h2, mkKey_comm]

namespace Match

variable {α : Type} [Inhabited α]

theorem roundsAux_length (fixed : α) (k : Nat) (others : List α) (n : Nat) :
    (roundsAux fixed k others n).length = k := by
  induction k generalizing others with
  | zero => rfl
  | succ k ih => simp [roundsAux, ih]

theorem roundsAux_take (fixed : α) (R M : Nat) (others : List α) (n : Nat) (h : R ≤ M) :
    roundsAux fixed R others n = (roundsAux fixed M others n).take R := by
  induction R generalizing M others with
  | zero => simp [roundsAux]
  | succ R ih =>
    cases M with
    | zero => exact absurd h (by omega)
    | succ M =>
      simp only [roundsAux, List.take_succ_cons]
      rw [← ih M (rotateOthers others) (Nat.le_of_succ_le_succ h)]

theorem generate_rounds_eq (ids : List α) (num_rounds : Nat) (h : 2 ≤ ids.length) :
    generate_rounds ids num_rounds
      = roundsAux (ids.getD 0 default) (min num_rounds (ids.length - 1)) ids.tail ids.length := by
  unfold generate_rounds
  rw [if_neg (by omega)]
  have hif : (if num_rounds > ids.length - 1 then ids.length - 1 else num_rounds)
      = min num_rounds (ids.length - 1) := by
    by_cases hc : num_rounds > ids.length - 1
    · rw [if_pos hc, Nat.min_eq_right (by omega)]
    · rw [if_neg hc, Nat.min_eq_left (by omega)]
  rw [hif]

theorem getD_eq_getElem' (l : List α) (d : α) (i : Nat) (h : i < l.length) :
    l.getD i d = l[i] := by
  simp [List.getD_eq_getElem?_getD, List.getElem?_eq_getElem h]

theorem rotateOthers_length (l : List α) : (rotateOthers l).length = l.length := by
  unfold rotateOthers
  cases h : l.getLast? with
  | none => rfl
  | some a =>
    have hne : l ≠ [] := by
      intro he; rw [he] at h; simp at h
    have hpos := List.length_pos.mpr hne
    simp only [List.length_cons, List.length_dropLast]
    omega

theorem iterRot_length (l : List α) (k : Nat) :
    (rotateOthers^[k] l).length = l.length := by
  induction k with
  | zero => rfl
  | succ k ih => rw [Function.iterate_succ_apply', rotateOthers_length, ih]

theorem rotateOthers_perm (l : List α) : (rotateOthers l).Perm l := by
  unfold rotateOthers
  cases h : l.getLast? with
  | none => exact List.Perm.refl l
  | some a =>
    have hne : l ≠ [] := by
      intro he; rw [he] at h; simp at h
    have ha : a = l.getLast hne := by
      rw [List.getLast?_eq_getLast_of_ne_nil hne] at h
      exact (Option.some.inj h).symm
    have h2 : l.dropLast ++ [l.getLast hne] = l := List.dropLast_append_getLast hne
    have hp : (a :: l.dropLast).Perm (l.dropLast ++ [a]) :=
      (List.perm_append_singleton _ _).symm
    rw [ha] at hp ⊢
    exact hp.trans (by rw [h2])

theorem iterRot_perm (l : List α) (k : Nat) : (rotateOthers^[k] l).Perm l := by
  induction k with
  | zero => exact List.Perm.refl l
  | succ k ih =>
    rw [Function.iterate_succ_apply']
    exact (rotateOthers_perm _).trans ih

theorem rotateOthers_eq_cons (l : List α) (hne : l ≠ []) :
    rotateOthers l = l.getLast hne :: l.dropLast := by
  unfold rotateOthers
  rw [List.getLast?_eq_getLast_of_ne_nil hne]

theorem rotateOthers_getD (l : List α) (m : Nat) (hm : l.length = m) (hpos : 0 < m)
    (j : Nat) (hj : j < m) :
    (rotateOthers l).getD j default =
      if j = 0 then l.getD (m - 1) default else l.getD (j - 1) default := by
  have hne : l ≠ [] := by
    intro he; rw [he] at hm; simp at hm; omega
  rw [rotateOthers_eq_cons l hne]
  cases j with
  | zero =>
    rw [if_pos rfl]
    rw [getD_eq_getElem' _ _ 0 (by simp), getD_eq_getElem' _ _ (m - 1) (by omega)]
    simp only [List.getElem_cons_zero]
    rw [List.getLast_eq_getElem]
    congr 1
    omega
  | succ j =>
    rw [if_neg (by omega)]
    have hjl : j < l.dropLast.length := by
      rw [List.length_dropLast]; omega
    simp only [Nat.add_sub_cancel]
    rw [getD_eq_getElem' _ _ (j + 1) (by simp [List.length_dropLast]; omega),
      getD_eq_getElem' _ _ j (by omega)]
    simp only [List.getElem_cons_succ]
    exact List.getElem_dropLast l j hjl

theorem iterRot_getD (l : List α) (m : Nat) [NeZero m] (hm : l.length = m)
    (k : Nat) : ∀ (j : Nat), j < m →
    (rotateOthers^[k] l).getD j default
      = l.getD (((j : ZMod m) - (k : ZMod m)).val) default := by
  have hpos : 0 < m := Nat.pos_of_ne_zero (NeZero.ne m)
  induction k with
  | zero =>
    intro j hj
    simp [ZMod.val_cast_of_lt hj]
  | succ k ih =>
    intro j hj
    rw [Function.iterate_succ_apply']
    have hlen : (rotateOthers^[k] l).length = m := by rw [iterRot_length, hm]
    rw [rotateOthers_getD _ m hlen hpos j hj]
    have hm1 : ((m - 1 : Nat) : ZMod m) = -1 := by
      rw [Nat.cast_sub (by omega : 1 ≤ m)]
      simp [ZMod.natCast_self]
    by_cases h0 : j = 0
    · subst h0
      rw [if_pos rfl, ih (m - 1) (by omega)]
      congr 2
      rw [hm1]
      push_cast
      ring
    · rw [if_neg h0, ih (j - 1) (by omega)]
      congr 2
      rw [Nat.cast_sub (by omega : 1 ≤ j)]
      push_cast
      ring

theorem roundsAux_eq_map (fixed : α) (R : Nat) (others : List α) (n : Nat) :
    roundsAux fixed R others n
      = (List.range R).map (fun k => genPairs (fixed :: rotateOthers^[k] others) n) := by
  induction R generalizing others with
  | zero => rfl
  | succ R ih =>
    rw [List.range_succ_eq_map]
    simp only [roundsAux, List.map_cons, Function.iterate_zero_apply, List.map_map]
    refine congrArg₂ _ rfl ?_
    rw [ih (rotateOthers others)]
    refine List.map_congr_left ?_
    intro k _
    simp [Function.comp, Function.iterate_succ_apply]

end Match

namespace Match

variable {α : Type} [Inhabited α]

theorem map_getD_range_take (c : List α) (K : Nat) (hK : K ≤ c.length) :
    (List.range K).map (fun i => c.getD i default) = c.take K := by
  induction c generalizing K with
  | nil =>
    simp only [List.length_nil, Nat.le_zero] at hK
    subst hK
    simp
  | cons a t ih =>
    cases K with
    | zero => simp
    | succ K =>
      rw [List.range_succ_eq_map, List.take_succ_cons]
      simp only [List.map_cons, List.map_map]
      refine congrArg₂ _ rfl ?_
      rw [← ih K (by simpa using hK)]
      refine List.map_congr_left ?_
      intro i _
      rfl

theorem map_getD_range_rev (c : List α) : ∀ (K : Nat), K ≤ c.length →
    (List.range K).map (fun i => c.getD (c.length - 1 - i) default)
      = (c.drop (c.length - K)).reverse := by
  intro K
  induction K with
  | zero => intro _; simp
  | succ K ih =>
    intro hK
    rw [List.range_succ, List.map_append, ih (by omega)]
    simp only [List.map_cons, List.map_nil]
    have h1 : c.length - (K + 1) < c.length := by omega
    rw [List.drop_eq_getElem_cons h1, List.reverse_cons]
    have h2 : c.length - (K + 1) + 1 = c.length - K := by omega
    rw [h2]
    refine congrArg₂ _ rfl ?_
    have h3 : c.length - 1 - K = c.length - (K + 1) := by omega
    rw [getD_eq_getElem' _ _ _ (by omega : c.length - 1 - K < c.length)]
    simp only [h3]

theorem flatMap_pair_perm {β γ : Type} (l : List β) (f g : β → γ) :
    (l.flatMap (fun i => [f i, g i])).Perm (l.map f ++ l.map g) := by
  induction l with
  | nil => simp
  | cons a t ih =>
    simp only [List.flatMap_cons, List.map_cons, List.cons_append]
    refine (List.Perm.cons _ (List.Perm.cons _ ih)).trans ?_
    exact List.Perm.cons _ List.perm_middle.symm

theorem genPairs_flat_perm (c : List α) (n : Nat) (hc : c.length = n) (heven : n % 2 = 0) :
    ((genPairs c n).flatMap (fun p => [p.1, p.2])).Perm c := by
  unfold genPairs
  rw [List.flatMap_map]
  have h1 : ((List.range (n / 2)).flatMap
        ((fun p : α × α => [p.1, p.2]) ∘ fun i => (c.getD i default, c.getD (n - 1 - i) default))).Perm
      ((List.range (n / 2)).map (fun i => c.getD i default)
        ++ (List.range (n / 2)).map (fun i => c.getD (n - 1 - i) default)) :=
    flatMap_pair_perm _ _ _
  refine h1.trans ?_
  rw [map_getD_range_take c (n / 2) (by omega)]
  have h2 : (List.range (n / 2)).map (fun i => c.getD (n - 1 - i) default)
      = (c.drop (n / 2)).reverse := by
    have hdr := map_getD_range_rev c (n / 2) (by omega)
    rw [hc] at hdr
    have hnn : n - n / 2 = n / 2 := by omega
    rw [hnn] at hdr
    exact hdr
  rw [h2]
  have h3 : (c.take (n / 2) ++ (c.drop (n / 2)).reverse).Perm
      (c.take (n / 2) ++ c.drop (n / 2)) :=
    List.Perm.append_left _ (List.reverse_perm _)
  refine h3.trans ?_
  rw [List.take_append_drop]

end Match

theorem zmod_natCast_inj (m a b : Nat) [NeZero m] (ha : a < m) (hb : b < m)
    (h : (a : ZMod m) = b) : a = b := by
  have hv := congrArg ZMod.val h
  rwa [ZMod.val_cast_of_lt ha, ZMod.val_cast_of_lt hb] at hv

theorem zmod_cast_val (m : Nat) [NeZero m] (a : ZMod m) :
    ((a.val : Nat) : ZMod m) = a := by
  rw [ZMod.natCast_val, ZMod.cast_id]

theorem zmod_two_mul_inj (m : Nat) [NeZero m] (hodd : m % 2 = 1) (a b : Nat)
    (ha : a < m) (hb : b < m) (h : (2 : ZMod m) * (a : ZMod m) = 2 * (b : ZMod m)) :
    a = b := by
  have h2 : ((2 * a : Nat) : ZMod m) = ((2 * b : Nat) : ZMod m) := by push_cast; exact h
  rw [ZMod.natCast_eq_natCast_iff] at h2
  have hco : Nat.gcd m 2 = 1 := Nat.coprime_two_right.mpr (Nat.odd_iff.mpr hodd)
  have h3 := Nat.ModEq.cancel_left_of_coprime hco h2
  have h4 : a % m = b % m := h3
  rwa [Nat.mod_eq_of_lt ha, Nat.mod_eq_of_lt hb] at h4

namespace Match

variable {α : Type} [Inhabited α]

theorem cur_getD_zero (fx : α) (tl : List α) (k : Nat) :
    (fx :: rotateOthers^[k] tl).getD 0 default = fx := rfl

theorem cur_getD_succ (fx : α) (tl : List α) (m : Nat) [NeZero m] (hm : tl.length = m)
    (k t : Nat) (ht : t < m) :
    (fx :: rotateOthers^[k] tl).getD (t + 1) default
      = tl.getD (((t : ZMod m) - (k : ZMod m)).val) default := by
  have hc : (fx :: rotateOthers^[k] tl).getD (t + 1) default
      = (rotateOthers^[k] tl).getD t default := rfl
  rw [hc]
  exact iterRot_getD tl m hm k t ht

end Match

namespace Match

variable {α : Type} [Inhabited α]

theorem pair_key_inj (fx : α) (tl : List α) (m n : Nat) [NeZero m]
    (hm : tl.length = m) (hmn : n = m + 1) (hodd : m % 2 = 1)
    (hfx : fx ∉ tl) (htl : tl.Nodup)
    (k i k' i' : Nat) (hk : k < m) (hk' : k' < m) (hi : i < n / 2) (hi' : i' < n / 2)
    (heq : Sym2.mk ((fx :: rotateOthers^[k] tl).getD i default,
                    (fx :: rotateOthers^[k] tl).getD (n - 1 - i) default)
         = Sym2.mk ((fx :: rotateOthers^[k'] tl).getD i' default,
                    (fx :: rotateOthers^[k'] tl).getD (n - 1 - i') default)) :
    k = k' ∧ i = i' := by
  have hpos : 0 < m := by omega
  have hmem : ∀ x : ZMod m, tl.getD x.val default ∈ tl := by
    intro x
    rw [getD_eq_getElem' _ _ _ (by rw [hm]; exact ZMod.val_lt x)]
    exact List.getElem_mem _
  have hfx_ne : ∀ x : ZMod m, fx ≠ tl.getD x.val default := by
    intro x h
    exact hfx (h ▸ hmem x)
  have htlinj : ∀ x y : ZMod m, tl.getD x.val default = tl.getD y.val default → x = y := by
    intro x y h
    rw [getD_eq_getElem' _ _ _ (by rw [hm]; exact ZMod.val_lt x),
      getD_eq_getElem' _ _ _ (by rw [hm]; exact ZMod.val_lt y)] at h
    exact ZMod.val_injective m ((htl.getElem_inj_iff).mp h)
  have hsnd : ∀ (kk ii : Nat), ii < n / 2 →
      (fx :: rotateOthers^[kk] tl).getD (n - 1 - ii) default
        = tl.getD ((((m - 1 - ii : Nat) : ZMod m) - (kk : ZMod m)).val) default := by
    intro kk ii hii
    have h1 : n - 1 - ii = (m - 1 - ii) + 1 := by omega
    rw [h1]
    exact cur_getD_succ fx tl m hm kk (m - 1 - ii) (by omega)
  rw [hsnd k i hi, hsnd k' i' hi'] at heq
  cases i with
  | zero =>
    cases i' with
    | zero =>
      refine ⟨?_, rfl⟩
      rw [cur_getD_zero, cur_getD_zero, Sym2.eq_iff] at heq
      rcases heq with ⟨-, h2⟩ | ⟨h1, -⟩
      · have := htlinj _ _ h2
        have hkk : (k : ZMod m) = (k' : ZMod m) := by
          have h3 := sub_right_injective this  -- placeholder, fixed below
          exact h3
        exact zmod_natCast_inj m k k' hk hk' hkk
      · exact absurd h1 (hfx_ne _)
    | succ s' =>
      rw [cur_getD_zero] at heq
      rw [show (fx :: rotateOthers^[k'] tl).getD (s' + 1) default
          = tl.getD (((s' : ZMod m) - (k' : ZMod m)).val) default from
        cur_getD_succ fx tl m hm k' s' (by omega)] at heq
      rw [Sym2.eq_iff] at heq
      rcases heq with ⟨h1, -⟩ | ⟨h1, -⟩
      · exact absurd h1 (hfx_ne _)
      · exact absurd h1 (hfx_ne _)
  | succ s =>
    rw [show (fx :: rotateOthers^[k] tl).getD (s + 1) default
        = tl.getD (((s : ZMod m) - (k : ZMod m)).val) default from
      cur_getD_succ fx tl m hm k s (by omega)] at heq
    cases i' with
    | zero =>
      rw [cur_getD_zero, Sym2.eq_iff] at heq
      rcases heq with ⟨h1, -⟩ | ⟨-, h2⟩
      · exact absurd h1.symm (hfx_ne _)
      · exact absurd h2.symm (hfx_ne _)
    | succ s' =>
      rw [show (fx :: rotateOthers^[k'] tl).getD (s' + 1) default
          = tl.getD (((s' : ZMod m) - (k' : ZMod m)).val) default from
        cur_getD_succ fx tl m hm k' s' (by omega)] at heq
      rw [Sym2.eq_iff] at heq
      have hm3 : 3 ≤ m := by omega
      have hc1 : ((m - 1 - (s + 1) : Nat) : ZMod m) = ((m - 2 : Nat) : ZMod m) - (s : ZMod m) := by
        have : m - 1 - (s + 1) = (m - 2) - s := by omega
        rw [this, Nat.cast_sub (by omega : s ≤ m - 2)]
      have hc1' : ((m - 1 - (s' + 1) : Nat) : ZMod m) = ((m - 2 : Nat) : ZMod m) - (s' : ZMod m) := by
        have : m - 1 - (s' + 1) = (m - 2) - s' := by omega
        rw [this, Nat.cast_sub (by omega : s' ≤ m - 2)]
      rw [hc1, hc1'] at heq
      rcases heq with ⟨h1, h2⟩ | ⟨h1, h2⟩
      · have e1 := htlinj _ _ h1
        have e2 := htlinj _ _ h2
        have ek : (2 : ZMod m) * (k : ZMod m) = 2 * (k' : ZMod m) := by
          have := congrArg₂ (· + ·) e1 e2
          simp only at this
          linear_combination -this
        have hkk := zmod_two_mul_inj m hodd k k' hk hk' ek
        refine ⟨hkk, ?_⟩
        subst hkk
        have es : (s : ZMod m) = (s' : ZMod m) := by linear_combination e1
        have := zmod_natCast_inj m s s' (by omega) (by omega) es
        omega
      · have e1 := htlinj _ _ h1
        have e2 := htlinj _ _ h2
        have ek : (2 : ZMod m) * (k : ZMod m) = 2 * (k' : ZMod m) := by
          have := congrArg₂ (· + ·) e1 e2
          simp only at this
          linear_combination -this
        have hkk := zmod_two_mul_inj m hodd k k' hk hk' ek
        subst hkk
        have es : ((s + s' : Nat) : ZMod m) = ((m - 2 : Nat) : ZMod m) := by
          push_cast
          linear_combination e1
        have := zmod_natCast_inj m (s + s') (m - 2) (by omega) (by omega) es
        omega

end Match

theorem circle_cover_aux (m : Nat) [NeZero m] (hodd : m % 2 = 1) (x y : Nat)
    (hx : x < m) (hy : y < m) (hxy : x ≠ y) :
    ∃ k i, k < m ∧ 1 ≤ i ∧ i < (m + 1) / 2 ∧
      ((((i - 1 : Nat) : ZMod m) - (k : ZMod m)) = (x : ZMod m)
          ∧ (((m - 1 - i : Nat) : ZMod m) - (k : ZMod m)) = (y : ZMod m)
        ∨ (((i - 1 : Nat) : ZMod m) - (k : ZMod m)) = (y : ZMod m)
          ∧ (((m - 1 - i : Nat) : ZMod m) - (k : ZMod m)) = (x : ZMod m)) := by
  have hm3 : 3 ≤ m := by omega
  have hinv : (2 : ZMod m) * (((m + 1) / 2 : Nat) : ZMod m) = 1 := by
    have he : (2 * ((m + 1) / 2) : Nat) = m + 1 := by omega
    have hc : ((2 * ((m + 1) / 2) : Nat) : ZMod m) = ((m + 1 : Nat) : ZMod m) := by rw [he]
    push_cast at hc
    rw [ZMod.natCast_self] at hc
    linear_combination hc
  set κ : ZMod m := -1 - (((m + 1) / 2 : Nat) : ZMod m) * ((x : ZMod m) + (y : ZMod m)) with hκ
  set k := κ.val with hkdef
  have hkm : k < m := ZMod.val_lt κ
  have hkc : ((k : Nat) : ZMod m) = κ := zmod_cast_val m κ
  have hsum : (x : ZMod m) + (y : ZMod m) = -2 - 2 * (k : ZMod m) := by
    rw [hkc, hκ]
    linear_combination (-((x : ZMod m) + (y : ZMod m))) * hinv
  set tx := ((x : ZMod m) + (k : ZMod m)).val with htxdef
  set ty := ((y : ZMod m) + (k : ZMod m)).val with htydef
  have htxm : tx < m := ZMod.val_lt _
  have htym : ty < m := ZMod.val_lt _
  have hxc : ((tx : Nat) : ZMod m) = (x : ZMod m) + (k : ZMod m) := zmod_cast_val m _
  have hyc : ((ty : Nat) : ZMod m) = (y : ZMod m) + (k : ZMod m) := zmod_cast_val m _
  have hm1cast : ((m - 1 : Nat) : ZMod m) = -1 := by
    rw [Nat.cast_sub (by omega : 1 ≤ m)]
    simp [ZMod.natCast_self]
  have htxne : tx ≠ m - 1 := by
    intro he
    have h1 : (x : ZMod m) + (k : ZMod m) = -1 := by
      rw [← hxc, he, hm1cast]
    have h2 : (y : ZMod m) = (x : ZMod m) := by linear_combination hsum - 2 * h1
    exact hxy (zmod_natCast_inj m y x hy hx h2).symm
  have htyne : ty ≠ m - 1 := by
    intro he
    have h1 : (y : ZMod m) + (k : ZMod m) = -1 := by
      rw [← hyc, he, hm1cast]
    have h2 : (x : ZMod m) = (y : ZMod m) := by linear_combination hsum - 2 * h1
    exact hxy (zmod_natCast_inj m x y hx hy h2)
  have hm2cast : ((m - 2 : Nat) : ZMod m) = -2 := by
    rw [Nat.cast_sub (by omega : 2 ≤ m)]
    simp [ZMod.natCast_self]
  have hsv : (tx + ty) % m = m - 2 := by
    have h1 : ((x : ZMod m) + (k : ZMod m)) + ((y : ZMod m) + (k : ZMod m))
        = ((m - 2 : Nat) : ZMod m) := by
      rw [hm2cast]
      linear_combination hsum
    have h2 := congrArg ZMod.val h1
    rw [ZMod.val_add, ZMod.val_cast_of_lt (by omega : m - 2 < m)] at h2
    exact h2
  have hsum2 : tx + ty = m - 2 := by
    rcases Nat.lt_or_ge (tx + ty) m with hlt | hge
    · rw [Nat.mod_eq_of_lt hlt] at hsv
      omega
    · have hs2 : (tx + ty) % m = tx + ty - m := by
        rw [Nat.mod_eq_sub_mod hge, Nat.mod_eq_of_lt (by omega)]
      omega
  have htxty : tx ≠ ty := by
    intro he
    omega
  rcases Nat.lt_or_gt_of_ne htxty with hlt | hlt
  · refine ⟨k, tx + 1, hkm, by omega, by omega, Or.inl ⟨?_, ?_⟩⟩
    · simp only [Nat.add_sub_cancel]
      linear_combination hxc
    · have hty2 : m - 1 - (tx + 1) = ty := by omega
      rw [hty2]
      linear_combination hyc
  · refine ⟨k, ty + 1, hkm, by omega, by omega, Or.inr ⟨?_, ?_⟩⟩
    · simp only [Nat.add_sub_cancel]
      linear_combination hyc
    · have htx2 : m - 1 - (ty + 1) = tx := by omega
      rw [htx2]
      linear_combination hxc

namespace Match

variable {α : Type} [Inhabited α]

theorem genPairs_length (c : List α) (n : Nat) : (genPairs c n).length = n / 2 := by
  simp [genPairs]

theorem round_flat_perm (fx : α) (tl : List α) (m n : Nat)
    (hm : tl.length = m) (hmn : n = m + 1) (hodd : m % 2 = 1) (k : Nat) :
    ((genPairs (fx :: rotateOthers^[k] tl) n).flatMap (fun p => [p.1, p.2])).Perm (fx :: tl) := by
  have hlen : (fx :: rotateOthers^[k] tl).length = n := by
    simp only [List.length_cons, iterRot_length, hm]
    omega
  have heven : n % 2 = 0 := by omega
  refine (genPairs_flat_perm _ n hlen heven).trans ?_
  exact List.Perm.cons fx (iterRot_perm tl k)

theorem circle_keys_nodup (fx : α) (tl : List α) (m n : Nat) [NeZero m]
    (hm : tl.length = m) (hmn : n = m + 1) (hodd : m % 2 = 1)
    (hfx : fx ∉ tl) (htl : tl.Nodup) :
    ((((List.range m).map (fun k => genPairs (fx :: rotateOthers^[k] tl) n)).flatten).map
      Sym2.mk).Nodup := by
  rw [List.map_flatten, List.map_map, List.nodup_flatten]
  constructor
  · intro lkeys hmemk
    rw [List.mem_map] at hmemk
    obtain ⟨k, hkmem, hlk⟩ := hmemk
    rw [List.mem_range] at hkmem
    subst hlk
    simp only [Function.comp]
    unfold genPairs
    rw [List.map_map]
    refine List.Nodup.map_on ?_ (List.nodup_range _)
    intro i hi j hj hfij
    rw [List.mem_range] at hi hj
    have hinj := pair_key_inj fx tl m n hm hmn hodd hfx htl k i k j hkmem hkmem hi hj
      (by simpa [Function.comp] using hfij)
    exact hinj.2
  · rw [List.pairwise_map]
    refine (List.pairwise_lt_range m).imp_of_mem ?_
    intro k k' hkm hk'm hlt
    rw [List.mem_range] at hkm hk'm
    intro key hkey1 hkey2
    simp only [Function.comp] at hkey1 hkey2
    unfold genPairs at hkey1 hkey2
    rw [List.map_map, List.mem_map] at hkey1 hkey2
    obtain ⟨i, hi, hkeyi⟩ := hkey1
    obtain ⟨i', hi', hkeyi'⟩ := hkey2
    rw [List.mem_range] at hi hi'
    have heq := hkeyi.trans hkeyi'.symm
    have hinj := pair_key_inj fx tl m n hm hmn hodd hfx htl k i k' i' hkm hk'm hi hi'
      (by simpa [Function.comp] using heq)
    omega

theorem circle_covers (fx : α) (tl : List α) (m n : Nat) [NeZero m]
    (hm : tl.length = m) (hmn : n = m + 1) (hodd : m % 2 = 1)
    (hfx : fx ∉ tl) (htl : tl.Nodup) (a b : α)
    (ha : a ∈ fx :: tl) (hb : b ∈ fx :: tl) (hab : a ≠ b) :
    Sym2.mk (a, b)
      ∈ (((List.range m).map (fun k => genPairs (fx :: rotateOthers^[k] tl) n)).flatten).map
          Sym2.mk := by
  have hpos : 0 < m := by omega
  have hn2 : 0 < n / 2 := by omega
  have hmemki : ∀ (k i : Nat), k < m → i < n / 2 →
      Sym2.mk ((fx :: rotateOthers^[k] tl).getD i default,
               (fx :: rotateOthers^[k] tl).getD (n - 1 - i) default)
        ∈ (((List.range m).map (fun k => genPairs (fx :: rotateOthers^[k] tl) n)).flatten).map
            Sym2.mk := by
    intro k i hk hi
    refine List.mem_map_of_mem _ ?_
    refine List.mem_flatten_of_mem (l := genPairs (fx :: rotateOthers^[k] tl) n) ?_ ?_
    · exact List.mem_map_of_mem _ (List.mem_range.mpr hk)
    · unfold genPairs
      exact List.mem_map_of_mem _ (List.mem_range.mpr hi)
  have hsnd : ∀ (kk ii : Nat), ii < n / 2 →
      (fx :: rotateOthers^[kk] tl).getD (n - 1 - ii) default
        = tl.getD ((((m - 1 - ii : Nat) : ZMod m) - (kk : ZMod m)).val) default := by
    intro kk ii hii
    have h1 : n - 1 - ii = (m - 1 - ii) + 1 := by omega
    rw [h1]
    exact cur_getD_succ fx tl m hm kk (m - 1 - ii) (by omega)
  rcases List.mem_cons.mp ha with rfl | hatl
  · rcases List.mem_cons.mp hb with rfl | hbtl
    · exact absurd rfl hab
    · obtain ⟨j, hj, hbj⟩ := List.mem_iff_getElem.mp hbtl
      have hjm : j < m := hm ▸ hj
      have hkey := hmemki (m - 1 - j) 0 (by omega) hn2
      rw [cur_getD_zero, hsnd (m - 1 - j) 0 hn2] at hkey
      have hidx : (((m - 1 - 0 : Nat) : ZMod m) - ((m - 1 - j : Nat) : ZMod m))
          = (j : ZMod m) := by
        have e2 : ((m - 1 - j : Nat) : ZMod m) = ((m - 1 : Nat) : ZMod m) - (j : ZMod m) := by
          rw [Nat.cast_sub (by omega : j ≤ m - 1)]
        rw [Nat.sub_zero, e2]
        ring
      rw [hidx, ZMod.val_cast_of_lt hjm, getD_eq_getElem' _ _ _ hj, hbj] at hkey
      exact hkey
  · rcases List.mem_cons.mp hb with rfl | hbtl
    · obtain ⟨j, hj, haj⟩ := List.mem_iff_getElem.mp hatl
      have hjm : j < m := hm ▸ hj
      have hkey := hmemki (m - 1 - j) 0 (by omega) hn2
      rw [cur_getD_zero, hsnd (m - 1 - j) 0 hn2] at hkey
      have hidx : (((m - 1 - 0 : Nat) : ZMod m) - ((m - 1 - j : Nat) : ZMod m))
          = (j : ZMod m) := by
        have e2 : ((m - 1 - j : Nat) : ZMod m) = ((m - 1 : Nat) : ZMod m) - (j : ZMod m) := by
          rw [Nat.cast_sub (by omega : j ≤ m - 1)]
        rw [Nat.sub_zero, e2]
        ring
      rw [hidx, ZMod.val_cast_of_lt hjm, getD_eq_getElem' _ _ _ hj, haj] at hkey
      rw [show Sym2.mk (a, b) = Sym2.mk (b, a) from Sym2.eq_swap]
      exact hkey
    · obtain ⟨x, hx, hxa⟩ := List.mem_iff_getElem.mp hatl
      obtain ⟨y, hy, hyb⟩ := List.mem_iff_getElem.mp hbtl
      have hxm : x < m := hm ▸ hx
      have hym : y < m := hm ▸ hy
      have hxy : x ≠ y := by
        intro he
        apply hab
        rw [← hxa, ← hyb]
        subst he
        rfl
      obtain ⟨k, i, hk, hi1, hi2, horient⟩ := circle_cover_aux m hodd x y hxm hym hxy
      have hin2 : i < n / 2 := by omega
      have hkey := hmemki k i hk hin2
      have hfst : (fx :: rotateOthers^[k] tl).getD i default
          = tl.getD ((((i - 1 : Nat) : ZMod m) - (k : ZMod m)).val) default := by
        obtain ⟨i', rfl⟩ : ∃ i', i = i' + 1 := ⟨i - 1, by omega⟩
        simpa using cur_getD_succ fx tl m hm k i' (by omega)
      rw [hfst, hsnd k i hin2] at hkey
      rcases horient with ⟨e1, e2⟩ | ⟨e1, e2⟩
      · rw [e1, e2, ZMod.val_cast_of_lt hxm, ZMod.val_cast_of_lt hym,
          getD_eq_getElem' _ _ _ hx, getD_eq_getElem' _ _ _ hy, hxa, hyb] at hkey
        exact hkey
      · rw [e1, e2, ZMod.val_cast_of_lt hym, ZMod.val_cast_of_lt hxm,
          getD_eq_getElem' _ _ _ hy, getD_eq_getElem' _ _ _ hx, hyb, hxa] at hkey
        rw [show Sym2.mk (a, b) = Sym2.mk (b, a) from Sym2.eq_swap]
        exact hkey

end Match

/-- C2: for every ordered list of `n` distinct ids with `n` even and
`n ≥ 2`, the rotation scheduler `Match.generate_rounds ids (n-1)` returns
exactly `n-1` rounds, each consisting of `n/2` pairs in which no id
occurs twice, and over the whole sequence every unordered pair of
distinct input ids occurs exactly once: the unordered keys of all emitted
pairs are pairwise distinct, every unordered pair of distinct ids
appears, every emitted pair consists of two distinct input ids, and the
total number of emitted pairs is `n*(n-1)/2 = C(n,2)`. -/
theorem claimC2_circle_method (ids : List String) (hnd : ids.Nodup)
    (hn : 2 ≤ ids.length) (heven : ids.length % 2 = 0) :
    (Match.generate_rounds ids (ids.length - 1)).length = ids.length - 1
    ∧ (∀ r ∈ Match.generate_rounds ids (ids.length - 1), r.length = ids.length / 2)
    ∧ (∀ r ∈ Match.generate_rounds ids (ids.length - 1),
        (r.flatMap (fun p => [p.1, p.2])).Nodup)
    ∧ ((Match.generate_rounds ids (ids.length - 1)).flatten.map Sym2.mk).Nodup
    ∧ (∀ a b : String, a ∈ ids → b ∈ ids → a ≠ b →
        Sym2.mk (a, b) ∈ (Match.generate_rounds ids (ids.length - 1)).flatten.map Sym2.mk)
    ∧ (∀ p ∈ (Match.generate_rounds ids (ids.length - 1)).flatten,
        p.1 ∈ ids ∧ p.2 ∈ ids ∧ p.1 ≠ p.2)
    ∧ ((Match.generate_rounds ids (ids.length - 1)).flatten.length * 2
        = ids.length * (ids.length - 1)) := by
  haveI : NeZero (ids.length - 1) := ⟨by omega⟩
  have htl_len : ids.tail.length = ids.length - 1 := by simp [List.length_tail]
  have hids : ids = ids.getD 0 default :: ids.tail := by
    cases ids with
    | nil => simp at hn
    | cons a t => rfl
  have hnd' := List.nodup_cons.mp (hids ▸ hnd)
  have hodd : (ids.length - 1) % 2 = 1 := by omega
  have hmn : ids.length = (ids.length - 1) + 1 := by omega
  have hrounds : Match.generate_rounds ids (ids.length - 1)
      = (List.range (ids.length - 1)).map
          (fun k => Match.genPairs
            (ids.getD 0 default :: Match.rotateOthers^[k] ids.tail) ids.length) := by
    rw [Match.generate_rounds_eq ids (ids.length - 1) hn, Nat.min_self,
      Match.roundsAux_eq_map]
  have hclen : ∀ k : Nat,
      (ids.getD 0 default :: Match.rotateOthers^[k] ids.tail).length = ids.length := by
    intro k
    simp only [List.length_cons, Match.iterRot_length, htl_len]
    omega
  have hcperm : ∀ k : Nat,
      (ids.getD 0 default :: Match.rotateOthers^[k] ids.tail).Perm ids := by
    intro k
    conv_rhs => rw [hids]
    exact List.Perm.cons _ (Match.iterRot_perm _ _)
  refine ⟨?_, ?_, ?_, ?_, ?_, ?_, ?_⟩
  · rw [hrounds]
    simp
  · intro r hr
    rw [hrounds, List.mem_map] at hr
    obtain ⟨k, -, hrk⟩ := hr
    subst hrk
    exact Match.genPairs_length _ _
  · intro r hr
    rw [hrounds, List.mem_map] at hr
    obtain ⟨k, -, hrk⟩ := hr
    subst hrk
    have hperm := Match.round_flat_perm (ids.getD 0 default) ids.tail
      (ids.length - 1) ids.length htl_len hmn hodd k
    have hperm2 := hperm.trans (by rw [← hids] : (ids.getD 0 default :: ids.tail).Perm ids)
    exact hperm2.nodup_iff.mpr hnd
  · rw [hrounds]
    exact Match.circle_keys_nodup (ids.getD 0 default) ids.tail (ids.length - 1) ids.length
      htl_len hmn hodd hnd'.1 hnd'.2
  · intro a b ha hb hab
    rw [hrounds]
    refine Match.circle_covers (ids.getD 0 default) ids.tail (ids.length - 1) ids.length
      htl_len hmn hodd hnd'.1 hnd'.2 a b ?_ ?_ hab
    · rw [← hids]; exact ha
    · rw [← hids]; exact hb
  · intro p hp
    rw [hrounds, List.mem_flatten] at hp
    obtain ⟨r, hr, hpr⟩ := hp
    rw [List.mem_map] at hr
    obtain ⟨k, hk, hrk⟩ := hr
    rw [List.mem_range] at hk
    subst hrk
    unfold Match.genPairs at hpr
    rw [List.mem_map] at hpr
    obtain ⟨i, hi, hpi⟩ := hpr
    rw [List.mem_range] at hi
    subst hpi
    have hcnod : (ids.getD 0 default :: Match.rotateOthers^[k] ids.tail).Nodup :=
      (hcperm k).nodup_iff.mpr hnd
    have hb1 : i < (ids.getD 0 default :: Match.rotateOthers^[k] ids.tail).length := by
      rw [hclen k]; omega
    have hb2 : ids.length - 1 - i
        < (ids.getD 0 default :: Match.rotateOthers^[k] ids.tail).length := by
      rw [hclen k]; omega
    refine ⟨?_, ?_, ?_⟩
    · rw [Match.getD_eq_getElem' _ _ _ hb1]
      exact (hcperm k).mem_iff.mp (List.getElem_mem _)
    · rw [Match.getD_eq_getElem' _ _ _ hb2]
      exact (hcperm k).mem_iff.mp (List.getElem_mem _)
    · rw [Match.getD_eq_getElem' _ _ _ hb1, Match.getD_eq_getElem' _ _ _ hb2]
      intro hcontra
      have := (hcnod.getElem_inj_iff).mp hcontra
      omega
  · rw [hrounds, List.length_flatten, List.map_map]
    have hconst : (List.range (ids.length - 1)).map
        ((fun r : List (String × String) => r.length) ∘
          (fun k => Match.genPairs
            (ids.getD 0 default :: Match.rotateOthers^[k] ids.tail) ids.length))
        = List.replicate (ids.length - 1) (ids.length / 2) := by
      rw [List.eq_replicate_iff]
      refine ⟨by simp, ?_⟩
      intro v hv
      rw [List.mem_map] at hv
      obtain ⟨k, -, hvk⟩ := hv
      rw [← hvk]
      simp only [Function.comp]
      exact Match.genPairs_length _ _
    rw [hconst, List.sum_replicate, smul_eq_mul]
    have h2 : ids.length / 2 * 2 = ids.length := by omega
    calc (ids.length - 1) * (ids.length / 2) * 2
        = (ids.length - 1) * (ids.length / 2 * 2) := by ring
      _ = (ids.length - 1) * ids.length := by rw [h2]
      _ = ids.length * (ids.length - 1) := by ring

/-- Witness for C2 at the concrete roster `["a", "b", "c", "d"]`. -/
theorem claimC2_circle_method_witness :
    ((["a", "b", "c", "d"] : List String).Nodup
      ∧ 2 ≤ (["a", "b", "c", "d"] : List String).length
      ∧ (["a", "b", "c", "d"] : List String).length % 2 = 0)
    ∧ ((Match.generate_rounds (["a", "b", "c", "d"] : List String) 3).length = 3
      ∧ (∀ r ∈ Match.generate_rounds (["a", "b", "c", "d"] : List String) 3, r.length = 2)
      ∧ (∀ r ∈ Match.generate_rounds (["a", "b", "c", "d"] : List String) 3,
          (r.flatMap (fun p => [p.1, p.2])).Nodup)
      ∧ ((Match.generate_rounds (["a", "b", "c", "d"] : List String) 3).flatten.map
          Sym2.mk).Nodup
      ∧ (∀ a b : String, a ∈ (["a", "b", "c", "d"] : List String)
          → b ∈ (["a", "b", "c", "d"] : List String) → a ≠ b →
          Sym2.mk (a, b)
            ∈ (Match.generate_rounds (["a", "b", "c", "d"] : List String) 3).flatten.map Sym2.mk)
      ∧ (∀ p ∈ (Match.generate_rounds (["a", "b", "c", "d"] : List String) 3).flatten,
          p.1 ∈ (["a", "b", "c", "d"] : List String)
            ∧ p.2 ∈ (["a", "b", "c", "d"] : List String) ∧ p.1 ≠ p.2)
      ∧ ((Match.generate_rounds (["a", "b", "c", "d"] : List String) 3).flatten.length * 2
          = 12)) :=
  ⟨⟨by decide, by decide, by decide⟩,
    claimC2_circle_method ["a", "b", "c", "d"] (by decide) (by decide) (by decide)⟩

/-- C3: for every even-sized distinct roster and every requested round
count `R ≥ 1`, `Match.generate_rounds ids R` is exactly the prefix of
length `min R (n-1)` of the full sequence `Match.generate_rounds ids (n-1)`
— same pairs in the same order, so `R > n-1` is clamped and a smaller `R`
truncates the same sequence. -/
theorem claimC3_clamp_and_take (ids : List String) (R : Nat)
    (hnd : ids.Nodup) (hn : 2 ≤ ids.length) (heven : ids.length % 2 = 0) (hR : 1 ≤ R) :
    Match.generate_rounds ids R = (Match.generate_rounds ids (ids.length - 1)).take R
    ∧ (Match.generate_rounds ids R).length = min R (ids.length - 1) := by
  constructor
  · rw [Match.generate_rounds_eq ids R hn, Match.generate_rounds_eq ids (ids.length - 1) hn,
      Nat.min_self]
    rcases Nat.le_total R (ids.length - 1) with hcase | hcase
    · rw [Nat.min_eq_left hcase]
      exact Match.roundsAux_take _ _ _ _ _ hcase
    · rw [Nat.min_eq_right hcase]
      rw [List.take_of_length_le]
      rw [Match.roundsAux_length]
      exact hcase
  · rw [Match.generate_rounds_eq ids R hn, Match.roundsAux_length]

/-- Witness for C3 at the roster `["a", "b", "c", "d"]` with `R = 2`. -/
theorem claimC3_clamp_and_take_witness :
    ((["a", "b", "c", "d"] : List String).Nodup
      ∧ 2 ≤ (["a", "b", "c", "d"] : List String).length
      ∧ (["a", "b", "c", "d"] : List String).length % 2 = 0 ∧ 1 ≤ 2)
    ∧ (Match.generate_rounds (["a", "b", "c", "d"] : List String) 2
        = (Match.generate_rounds (["a", "b", "c", "d"] : List String) 3).take 2
      ∧ (Match.generate_rounds (["a", "b", "c", "d"] : List String) 2).length = min 2 3) :=
  ⟨⟨by decide, by decide, by decide, by decide⟩,
    claimC3_clamp_and_take ["a", "b", "c", "d"] 2 (by decide) (by decide) (by decide) (by decide)⟩

/-- C5 counterexample: on the odd roster `["a", "b", "c"]` the rotation
scheduler `match.generate_rounds` does not fail: it returns one round
pairing `"a"` with `"c"`, silently leaving `"b"` out. -/
theorem claimC5_counterexample :
    Match.generate_rounds (["a", "b", "c"] : List String) 1 = [[("a", "c")]]
    ∧ (["a", "b", "c"] : List String).length % 2 = 1 := by
  constructor
  · rfl
  · decide

/-- C5 amended: evenness is enforced at roster ingestion, not in the
scheduler.  `read_participants_from_csv` only ever returns a non-empty
even roster, and its validation step rejects an odd count with a
`ValueError` whose message names that count; the rotation scheduler
itself accepts odd rosters and returns `min R (n-1)` rounds of
`⌊n/2⌋` pairs (one id per round left unpaired and unreported). -/
theorem claimC5_evenness_at_ingestion (filename : String)
    (rows : List (String × String)) (ids : List String) (R : Nat)
    (hodd : ids.length % 2 = 1) (h3 : 3 ≤ ids.length) :
    (∀ l, ConfigLoader.read_participants_from_csv filename rows = Except.ok l →
      l.length % 2 = 0 ∧ l ≠ [])
    ∧ (∀ ps : List (String × String), ps ≠ [] → ps.length % 2 = 1 →
      ConfigLoader.validateParticipants filename ps
        = Except.error ("Number of participants must be even, got " ++ toString ps.length ++ "."))
    ∧ (Match.generate_rounds ids R).length = min R (ids.length - 1)
    ∧ (∀ r ∈ Match.generate_rounds ids R, r.length = ids.length / 2) := by
  refine ⟨?_, ?_, ?_, ?_⟩
  · intro l hl
    unfold ConfigLoader.read_participants_from_csv ConfigLoader.validateParticipants at hl
    split at hl
    · exact absurd hl (by simp)
    · split at hl
      · exact absurd hl (by simp)
      · rename_i hne hmod
        rw [Except.ok.injEq] at hl
        subst hl
        refine ⟨by omega, by simpa using hne⟩
  · intro ps hne hodd'
    unfold ConfigLoader.validateParticipants
    rw [if_neg (by simpa using hne), if_pos (by omega)]
  · rw [Match.generate_rounds_eq ids R (by omega), Match.roundsAux_length]
  · intro r hr
    rw [Match.generate_rounds_eq ids R (by omega), Match.roundsAux_eq_map] at hr
    rw [List.mem_map] at hr
    obtain ⟨k, -, hrk⟩ := hr
    subst hrk
    exact Match.genPairs_length _ _

/-- Witness for C5 (amended) at the odd roster `["a", "b", "c"]` with
`R = 5` and the odd row set `[("a", "x"), ("b", "y"), ("c", "z")]`. -/
theorem claimC5_evenness_at_ingestion_witness :
    ((["a", "b", "c"] : List String).length % 2 = 1 ∧ 3 ≤ (["a", "b", "c"] : List String).length)
    ∧ ((∀ l, ConfigLoader.read_participants_from_csv "names.csv"
          [("a", "x"), ("b", "y"), ("c", "z")] = Except.ok l → l.length % 2 = 0 ∧ l ≠ [])
      ∧ (∀ ps : List (String × String), ps ≠ [] → ps.length % 2 = 1 →
          ConfigLoader.validateParticipants "names.csv" ps
            = Except.error
              ("Number of participants must be even, got " ++ toString ps.length ++ "."))
      ∧ (Match.generate_rounds (["a", "b", "c"] : List String) 5).length = min 5 2
      ∧ (∀ r ∈ Match.generate_rounds (["a", "b", "c"] : List String) 5, r.length = 1)) :=
  ⟨⟨by decide, by decide⟩,
    claimC5_evenness_at_ingestion "names.csv" [("a", "x"), ("b", "y"), ("c", "z")]
      ["a", "b", "c"] 5 (by decide) (by decide)⟩

theorem zip_self_eq_map {α : Type} (l : List α) : l.zip l = l.map (fun x => (x, x)) := by
  induction l with
  | nil => rfl
  | cons a t ih => simp [List.zip_cons_cons, ih]

/-- C4 counterexample: `mbti_similarity` strips surrounding whitespace
before the length check, so the codes `"INTJ "` and `"INTJ"` — of
unequal length — score 4, not 0 as the claim states. -/
theorem claimC4_counterexample :
    MbtiMatch.mbti_similarity "INTJ " "INTJ" = 4
    ∧ ("INTJ " : String).length ≠ ("INTJ" : String).length := by
  constructor
  · rfl
  · decide

/-- C4 amended: `mbti_similarity` first uppercases and strips surrounding
whitespace from each argument; if both normalized codes have exactly 4
characters the score is the number of positions with the same character
(hence between 0 and 4, with identical normalized codes scoring 4 and
codes differing at every position scoring 0); in every other case —
including raw codes of unequal length only up to whitespace, codes of
equal length other than 4, and empty codes — the score is 0. -/
theorem claimC4_similarity_normalized (a b : String) :
    MbtiMatch.mbti_similarity a b ≤ 4
    ∧ ((MbtiMatch.normMbti a).length ≠ 4 ∨ (MbtiMatch.normMbti b).length ≠ 4 →
        MbtiMatch.mbti_similarity a b = 0)
    ∧ ((MbtiMatch.normMbti a).length = 4 → (MbtiMatch.normMbti b).length = 4 →
        MbtiMatch.mbti_similarity a b
          = ((MbtiMatch.normMbti a).data.zip (MbtiMatch.normMbti b).data).countP
              (fun p => p.1 == p.2))
    ∧ (MbtiMatch.normMbti a = MbtiMatch.normMbti b → (MbtiMatch.normMbti a).length = 4 →
        MbtiMatch.mbti_similarity a b = 4)
    ∧ ((∀ p ∈ (MbtiMatch.normMbti a).data.zip (MbtiMatch.normMbti b).data, p.1 ≠ p.2) →
        MbtiMatch.mbti_similarity a b = 0) := by
  have hsim : MbtiMatch.mbti_similarity a b
      = if (MbtiMatch.normMbti a).length ≠ 4 ∨ (MbtiMatch.normMbti b).length ≠ 4 then 0
        else ((MbtiMatch.normMbti a).data.zip (MbtiMatch.normMbti b).data).countP
          (fun p => p.1 == p.2) := rfl
  rw [hsim]
  refine ⟨?_, ?_, ?_, ?_, ?_⟩
  · split
    · omega
    · rename_i hlen
      push_neg at hlen
      refine le_trans (List.countP_le_length _) ?_
      rw [List.length_zip, String.length_data, String.length_data]
      omega
  · intro h
    rw [if_pos h]
  · intro h1 h2
    rw [if_neg (by omega)]
  · intro heq h4
    rw [if_neg (by rw [heq] at h4 ⊢; omega)]
    rw [← heq, zip_self_eq_map, List.countP_map]
    have hall : ∀ x ∈ (MbtiMatch.normMbti a).data,
        ((fun p : Char × Char => p.1 == p.2) ∘ fun x => (x, x)) x = true := by
      intro x _
      simp
    rw [List.countP_eq_length.mpr hall, String.length_data]
    exact h4
  · intro hdiff
    split
    · rfl
    · rw [List.countP_eq_zero.mpr]
      intro p hp
      simpa using hdiff p hp

/-- Witness for C4 (amended): case-insensitive identical codes score 4,
completely different codes score 0, a 2-character code scores 0. -/
theorem claimC4_similarity_normalized_witness :
    MbtiMatch.mbti_similarity "intj" "INTJ" = 4
    ∧ MbtiMatch.mbti_similarity "INTJ" "ESFP" = 0
    ∧ MbtiMatch.mbti_similarity "IN" "INTJ" = 0 :=
  ⟨(claimC4_similarity_normalized "intj" "INTJ").2.2.2.1 (by decide) (by decide),
   (claimC4_similarity_normalized "INTJ" "ESFP").2.2.2.2 (by decide),
   (claimC4_similarity_normalized "IN" "INTJ").2.1 (by decide)⟩

namespace MbtiMatch

theorem candidateEnum_mem (people : List Person) (past : List (String × String))
    (c : Nat × Person × Person) (hc : c ∈ candidateEnum people past) :
    ∃ i j, i < j ∧ j < people.length
      ∧ c = (mbti_similarity (people.getD i ⟨"", ""⟩).mbti (people.getD j ⟨"", ""⟩).mbti,
             people.getD i ⟨"", ""⟩, people.getD j ⟨"", ""⟩)
      ∧ mkKey (people.getD i ⟨"", ""⟩).pid (people.getD j ⟨"", ""⟩).pid ∉ past := by
  unfold candidateEnum at hc
  rw [List.mem_flatMap] at hc
  obtain ⟨i, hi, hc⟩ := hc
  rw [List.mem_range] at hi
  rw [List.mem_filterMap] at hc
  obtain ⟨j, hj, hcj⟩ := hc
  rw [List.mem_range'_1] at hj
  refine ⟨i, j, by omega, by omega, ?_⟩
  by_cases hkey : mkKey (people.getD i ⟨"", ""⟩).pid (people.getD j ⟨"", ""⟩).pid ∈ past
  · rw [if_pos hkey] at hcj
    exact absurd hcj (by simp)
  · rw [if_neg hkey] at hcj
    refine ⟨?_, hkey⟩
    exact (Option.some.inj hcj).symm

theorem candidateEnum_mem_of (people : List Person) (past : List (String × String))
    (i j : Nat) (hij : i < j) (hj : j < people.length)
    (hkey : mkKey (people.getD i ⟨"", ""⟩).pid (people.getD j ⟨"", ""⟩).pid ∉ past) :
    (mbti_similarity (people.getD i ⟨"", ""⟩).mbti (people.getD j ⟨"", ""⟩).mbti,
      people.getD i ⟨"", ""⟩, people.getD j ⟨"", ""⟩) ∈ candidateEnum people past := by
  unfold candidateEnum
  rw [List.mem_flatMap]
  refine ⟨i, List.mem_range.mpr (by omega), ?_⟩
  rw [List.mem_filterMap]
  refine ⟨j, List.mem_range'_1.mpr (by omega), ?_⟩
  rw [if_neg hkey]

theorem generate_candidate_pairs_perm (people : List Person) (past : List (String × String)) :
    (generate_candidate_pairs people past).Perm (candidateEnum people past) :=
  List.perm_insertionSort candLE _

theorem generate_candidate_pairs_mem (people : List Person) (past : List (String × String))
    (c : Nat × Person × Person) :
    c ∈ generate_candidate_pairs people past ↔ c ∈ candidateEnum people past :=
  (generate_candidate_pairs_perm people past).mem_iff

theorem mbti_fold_pairs (Q : Person × Person → Prop)
    (cs : List (Nat × Person × Person))
    (hcs : ∀ c ∈ cs, Q (c.2.1, c.2.2)) :
    ∀ (acc : List String × List (Person × Person)),
      (∀ pr ∈ acc.2, Q pr) →
      ∀ pr ∈ (cs.foldl
        (fun acc c =>
          if c.2.1.pid ∈ acc.1 ∨ c.2.2.pid ∈ acc.1 then acc
          else (acc.1 ++ [c.2.1.pid, c.2.2.pid], acc.2 ++ [(c.2.1, c.2.2)])) acc).2,
        Q pr := by
  induction cs with
  | nil =>
    intro acc hacc pr hpr
    exact hacc pr hpr
  | cons c cs ih =>
    intro acc hacc pr hpr
    rw [List.foldl_cons] at hpr
    refine ih (fun d hd => hcs d (List.mem_cons_of_mem _ hd)) _ ?_ pr hpr
    by_cases hc : c.2.1.pid ∈ acc.1 ∨ c.2.2.pid ∈ acc.1
    · simp only [if_pos hc]
      exact hacc
    · simp only [if_neg hc]
      intro q hq
      rw [List.mem_append] at hq
      rcases hq with hq | hq
      · exact hacc q hq
      · rw [List.mem_singleton] at hq
        subst hq
        exact hcs c (List.mem_cons_self _ _)

theorem mbti_fold_used_eq (cs : List (Nat × Person × Person)) :
    ∀ (acc : List String × List (Person × Person)),
      acc.1 = acc.2.flatMap (fun pr => [pr.1.pid, pr.2.pid]) →
      (cs.foldl
        (fun acc c =>
          if c.2.1.pid ∈ acc.1 ∨ c.2.2.pid ∈ acc.1 then acc
          else (acc.1 ++ [c.2.1.pid, c.2.2.pid], acc.2 ++ [(c.2.1, c.2.2)])) acc).1
      = (cs.foldl
        (fun acc c =>
          if c.2.1.pid ∈ acc.1 ∨ c.2.2.pid ∈ acc.1 then acc
          else (acc.1 ++ [c.2.1.pid, c.2.2.pid], acc.2 ++ [(c.2.1, c.2.2)])) acc).2.flatMap
          (fun pr => [pr.1.pid, pr.2.pid]) := by
  induction cs with
  | nil =>
    intro acc hacc
    exact hacc
  | cons c cs ih =>
    intro acc hacc
    rw [List.foldl_cons]
    refine ih _ ?_
    by_cases hc : c.2.1.pid ∈ acc.1 ∨ c.2.2.pid ∈ acc.1
    · simp only [if_pos hc]
      exact hacc
    · simp only [if_neg hc]
      rw [List.flatMap_append, ← hacc]
      rfl

theorem mbti_fold_used_nodup (cs : List (Nat × Person × Person))
    (hcs : ∀ c ∈ cs, c.2.1.pid ≠ c.2.2.pid) :
    ∀ (acc : List String × List (Person × Person)),
      acc.1.Nodup →
      (cs.foldl
        (fun acc c =>
          if c.2.1.pid ∈ acc.1 ∨ c.2.2.pid ∈ acc.1 then acc
          else (acc.1 ++ [c.2.1.pid, c.2.2.pid], acc.2 ++ [(c.2.1, c.2.2)])) acc).1.Nodup := by
  induction cs with
  | nil =>
    intro acc hacc
    exact hacc
  | cons c cs ih =>
    intro acc hacc
    rw [List.foldl_cons]
    refine ih (fun d hd => hcs d (List.mem_cons_of_mem _ hd)) _ ?_
    by_cases hc : c.2.1.pid ∈ acc.1 ∨ c.2.2.pid ∈ acc.1
    · simp only [if_pos hc]
      exact hacc
    · simp only [if_neg hc]
      push_neg at hc
      rw [List.nodup_append]
      refine ⟨hacc, ?_, ?_⟩
      · simp [hcs c (List.mem_cons_self _ _)]
      · intro x hx
        simp only [List.mem_cons, List.mem_singleton, List.not_mem_nil] at *
        intro hx2
        rcases hx2 with h | h | h
        · subst h; exact hc.1 hx
        · subst h; exact hc.2 hx
        · exact h
end MbtiMatch

namespace MbtiMatch

theorem walkCandidates_pairs_prop (Q : Person × Person → Prop)
    (cs : List (Nat × Person × Person)) (hcs : ∀ c ∈ cs, Q (c.2.1, c.2.2)) :
    ∀ pr ∈ (walkCandidates cs).2, Q pr :=
  mbti_fold_pairs Q cs hcs ([], []) (by simp)

theorem walkCandidates_used_eq (cs : List (Nat × Person × Person)) :
    (walkCandidates cs).1 = (walkCandidates cs).2.flatMap (fun pr => [pr.1.pid, pr.2.pid]) :=
  mbti_fold_used_eq cs ([], []) rfl

theorem walkCandidates_used_nodup (cs : List (Nat × Person × Person))
    (hcs : ∀ c ∈ cs, c.2.1.pid ≠ c.2.2.pid) : (walkCandidates cs).1.Nodup :=
  mbti_fold_used_nodup cs hcs ([], []) List.nodup_nil

theorem build_round_pairs_prop (Q : Person × Person → Prop)
    (people : List Person) (past : List (String × String))
    (hQ : ∀ c ∈ generate_candidate_pairs people past, Q (c.2.1, c.2.2)) :
    ∀ pr ∈ (build_round people past).1, Q pr := by
  intro pr hpr
  unfold build_round at hpr
  split at hpr
  · simp at hpr
  · exact walkCandidates_pairs_prop Q _ hQ pr hpr

theorem build_round_key_not_past (people : List Person) (past : List (String × String)) :
    ∀ pr ∈ (build_round people past).1, mkKey pr.1.pid pr.2.pid ∉ past := by
  refine build_round_pairs_prop _ people past ?_
  intro c hc
  obtain ⟨i, j, hij, hj, hc_eq, hkey⟩ :=
    candidateEnum_mem people past c ((generate_candidate_pairs_mem people past c).mp hc)
  subst hc_eq
  exact hkey

theorem build_round_pairs_indices (people : List Person) (past : List (String × String)) :
    ∀ pr ∈ (build_round people past).1, ∃ i j, i < j ∧ j < people.length
      ∧ pr = (people.getD i ⟨"", ""⟩, people.getD j ⟨"", ""⟩) := by
  refine build_round_pairs_prop _ people past ?_
  intro c hc
  obtain ⟨i, j, hij, hj, hc_eq, hkey⟩ :=
    candidateEnum_mem people past c ((generate_candidate_pairs_mem people past c).mp hc)
  subst hc_eq
  exact ⟨i, j, hij, hj, rfl⟩

theorem build_round_pairs_mem (people : List Person) (past : List (String × String)) :
    ∀ pr ∈ (build_round people past).1, pr.1 ∈ people ∧ pr.2 ∈ people := by
  intro pr hpr
  obtain ⟨i, j, hij, hj, heq⟩ := build_round_pairs_indices people past pr hpr
  subst heq
  constructor
  · rw [Match.getD_eq_getElem' _ _ _ (by omega)]
    exact List.getElem_mem _
  · rw [Match.getD_eq_getElem' _ _ _ hj]
    exact List.getElem_mem _

theorem build_round_pids_nodup (people : List Person) (past : List (String × String))
    (hnd : (people.map Person.pid).Nodup) :
    ((build_round people past).1.flatMap (fun pr => [pr.1.pid, pr.2.pid])).Nodup := by
  have hne : ∀ c ∈ generate_candidate_pairs people past, c.2.1.pid ≠ c.2.2.pid := by
    intro c hc
    obtain ⟨i, j, hij, hj, hc_eq, hkey⟩ :=
      candidateEnum_mem people past c ((generate_candidate_pairs_mem people past c).mp hc)
    subst hc_eq
    simp only
    rw [Match.getD_eq_getElem' _ _ _ (by omega : i < people.length),
      Match.getD_eq_getElem' _ _ _ hj]
    intro hcontra
    have hilen : i < (people.map Person.pid).length := by
      rw [List.length_map]; omega
    have hjlen : j < (people.map Person.pid).length := by
      rw [List.length_map]; exact hj
    have h1 : (people.map Person.pid).get ⟨i, hilen⟩ = (people.map Person.pid).get ⟨j, hjlen⟩ := by
      simp only [List.get_eq_getElem, List.getElem_map]
      exact hcontra
    have h2 := (hnd.get_inj_iff).mp h1
    have h3 : i = j := congrArg Fin.val h2
    omega
  unfold build_round
  split
  · simp
  · rw [← walkCandidates_used_eq]
    exact walkCandidates_used_nodup _ hne

theorem build_round_leftovers (people : List Person) (past : List (String × String)) :
    (build_round people past).2
      = people.filter (fun p => decide (p.pid ∉
          (build_round people past).1.flatMap (fun pr => [pr.1.pid, pr.2.pid]))) := by
  unfold build_round
  split
  · simp
  · rw [← walkCandidates_used_eq]

end MbtiMatch

namespace MbtiMatch

theorem update_past_pairs_subset (prs : List (Person × Person)) :
    ∀ (past : List (String × String)), past ⊆ update_past_pairs past prs := by
  induction prs with
  | nil =>
    intro past
    exact fun x hx => hx
  | cons pr prs ih =>
    intro past
    unfold update_past_pairs
    rw [List.foldl_cons]
    intro x hx
    refine ih _ ?_
    by_cases hc : mkKey pr.1.pid pr.2.pid ∈ past
    · simp only [if_pos hc]
      exact hx
    · simp only [if_neg hc]
      exact List.mem_append_left _ hx

theorem update_past_pairs_mem (prs : List (Person × Person)) :
    ∀ (past : List (String × String)) (pr : Person × Person), pr ∈ prs →
      mkKey pr.1.pid pr.2.pid ∈ update_past_pairs past prs := by
  induction prs with
  | nil =>
    intro past pr hpr
    simp at hpr
  | cons q prs ih =>
    intro past pr hpr
    rw [List.mem_cons] at hpr
    unfold update_past_pairs
    rw [List.foldl_cons]
    rcases hpr with hpr | hpr
    · subst hpr
      refine update_past_pairs_subset prs _ ?_
      by_cases hc : mkKey pr.1.pid pr.2.pid ∈ past
      · simp only [if_pos hc]
        exact hc
      · simp only [if_neg hc]
        exact List.mem_append_right _ (List.mem_singleton.mpr rfl)
    · exact ih _ pr hpr

theorem roundsLoop_keys_not_past :
    ∀ (num : Nat) (people : List Person) (past : List (String × String)),
      ∀ r ∈ roundsLoop num people past, ∀ q ∈ r, mkKey q.1 q.2 ∉ past := by
  intro num
  induction num with
  | zero =>
    intro people past r hr
    simp [roundsLoop] at hr
  | succ num ih =>
    intro people past r hr q hq
    unfold roundsLoop at hr
    split at hr
    · simp at hr
    · rw [List.mem_cons] at hr
      rcases hr with hr | hr
      · subst hr
        rw [List.mem_map] at hq
        obtain ⟨pr, hpr, hq⟩ := hq
        subst hq
        exact build_round_key_not_past people past pr hpr
      · intro hqin
        exact ih people _ r hr q hq (update_past_pairs_subset _ _ hqin)

theorem roundsLoop_pairwise_disjoint :
    ∀ (num : Nat) (people : List Person) (past : List (String × String)),
      List.Pairwise (fun r1 r2 => ∀ p ∈ r1, ∀ q ∈ r2, mkKey p.1 p.2 ≠ mkKey q.1 q.2)
        (roundsLoop num people past) := by
  intro num
  induction num with
  | zero =>
    intro people past
    exact List.Pairwise.nil
  | succ num ih =>
    intro people past
    unfold roundsLoop
    split
    · exact List.Pairwise.nil
    · refine List.Pairwise.cons ?_ (ih people _)
      intro r2 hr2 p hp q hq
      rw [List.mem_map] at hp
      obtain ⟨pr, hpr, hp⟩ := hp
      subst hp
      intro hcontra
      refine roundsLoop_keys_not_past num people _ r2 hr2 q hq ?_
      rw [← hcontra]
      exact update_past_pairs_mem _ _ pr hpr

theorem roundsLoop_length_le :
    ∀ (num : Nat) (people : List Person) (past : List (String × String)),
      (roundsLoop num people past).length ≤ num := by
  intro num
  induction num with
  | zero =>
    intro people past
    simp [roundsLoop]
  | succ num ih =>
    intro people past
    unfold roundsLoop
    split
    · simp
    · simpa using ih people _

theorem roundsLoop_ids :
    ∀ (num : Nat) (people : List Person) (past : List (String × String)),
      ∀ r ∈ roundsLoop num people past, ∀ q ∈ r,
        q.1 ∈ people.map Person.pid ∧ q.2 ∈ people.map Person.pid := by
  intro num
  induction num with
  | zero =>
    intro people past r hr
    simp [roundsLoop] at hr
  | succ num ih =>
    intro people past r hr q hq
    unfold roundsLoop at hr
    split at hr
    · simp at hr
    · rw [List.mem_cons] at hr
      rcases hr with hr | hr
      · subst hr
        rw [List.mem_map] at hq
        obtain ⟨pr, hpr, hq⟩ := hq
        subst hq
        have hmem := build_round_pairs_mem people past pr hpr
        exact ⟨List.mem_map_of_mem _ hmem.1, List.mem_map_of_mem _ hmem.2⟩
      · exact ih people _ r hr q hq

theorem buildPeople_pids (ids : List String) (parts : List (String × String)) :
    (buildPeople ids parts).map Person.pid = ids := by
  unfold buildPeople
  rw [List.map_map]
  have hcomp : (Person.pid ∘ fun pid =>
      (⟨pid, PyStr.pyStripS (((parts.find? (fun kv => kv.1 == pid)).map Prod.snd).getD "")⟩ :
        Person)) = id := rfl
  rw [hcomp, List.map_id]

end MbtiMatch

theorem length_keys_aux {β : Type} (f : Nat → Nat → β) :
    ∀ n : Nat,
      2 * ((List.range n).flatMap (fun j => (List.range j).map (fun i => f i j))).length
        = n * (n - 1) := by
  intro n
  induction n with
  | zero => rfl
  | succ n ih =>
    rw [List.range_succ, List.flatMap_append]
    simp only [List.flatMap_cons, List.flatMap_nil, List.append_nil, List.length_append,
      List.length_map, List.length_range]
    have h1 : (n + 1) * (n + 1 - 1) = n * (n - 1) + 2 * n := by
      cases n with
      | zero => rfl
      | succ k =>
        simp only [Nat.add_sub_cancel, Nat.succ_sub_one]
        ring
    omega

namespace MbtiMatch

theorem roundsLoop_le_missing (people : List Person) (K : List (String × String))
    (hK : ∀ (past : List (String × String)), ∀ pr ∈ (build_round people past).1,
      mkKey pr.1.pid pr.2.pid ∈ K) :
    ∀ (num : Nat) (past : List (String × String)),
      (roundsLoop num people past).length ≤ (K.toFinset \ past.toFinset).card := by
  intro num
  induction num with
  | zero =>
    intro past
    simp [roundsLoop]
  | succ num ih =>
    intro past
    unfold roundsLoop
    split
    · simp
    · rename_i hne
      rw [List.length_cons]
      obtain ⟨pr0, hpr0⟩ : ∃ pr, pr ∈ (build_round people past).1 := by
        cases h : (build_round people past).1 with
        | nil => exact absurd h hne
        | cons a t => exact ⟨a, h ▸ List.mem_cons_self a t⟩
      have hk0K : mkKey pr0.1.pid pr0.2.pid ∈ K := hK past pr0 hpr0
      have hk0past : mkKey pr0.1.pid pr0.2.pid ∉ past :=
        build_round_key_not_past people past pr0 hpr0
      have hk0upd : mkKey pr0.1.pid pr0.2.pid
          ∈ update_past_pairs past (build_round people past).1 :=
        update_past_pairs_mem _ past pr0 hpr0
      have hsub : (K.toFinset \ (update_past_pairs past (build_round people past).1).toFinset)
          ⊂ (K.toFinset \ past.toFinset) := by
        rw [Finset.ssubset_def]
        constructor
        · intro x hx
          rw [Finset.mem_sdiff] at hx ⊢
          refine ⟨hx.1, fun hxp => hx.2 ?_⟩
          rw [List.mem_toFinset] at hxp ⊢
          exact update_past_pairs_subset _ past hxp
        · intro hcon
          have hmem1 : mkKey pr0.1.pid pr0.2.pid ∈ (K.toFinset \ past.toFinset) := by
            rw [Finset.mem_sdiff, List.mem_toFinset, List.mem_toFinset]
            exact ⟨hk0K, hk0past⟩
          have h2 := hcon hmem1
          rw [Finset.mem_sdiff, List.mem_toFinset, List.mem_toFinset] at h2
          exact h2.2 hk0upd
      have hcard := Finset.card_lt_card hsub
      have hrec := ih (update_past_pairs past (build_round people past).1)
      omega

theorem roundsLoop_le_pair_count (people : List Person) :
    ∀ (num : Nat) (past : List (String × String)),
      2 * (roundsLoop num people past).length ≤ people.length * (people.length - 1) := by
  intro num past
  have hK : ∀ (past' : List (String × String)), ∀ pr ∈ (build_round people past').1,
      mkKey pr.1.pid pr.2.pid
        ∈ (List.range people.length).flatMap
            (fun j => (List.range j).map
              (fun i => mkKey (people.getD i ⟨"", ""⟩).pid (people.getD j ⟨"", ""⟩).pid)) := by
    intro past' pr hpr
    obtain ⟨i, j, hij, hj, heq⟩ := build_round_pairs_indices people past' pr hpr
    subst heq
    rw [List.mem_flatMap]
    refine ⟨j, List.mem_range.mpr hj, ?_⟩
    exact List.mem_map_of_mem _ (List.mem_range.mpr hij)
  have h1 := roundsLoop_le_missing people _ hK num past
  have h2 : ((List.range people.length).flatMap
      (fun j => (List.range j).map
        (fun i => mkKey (people.getD i ⟨"", ""⟩).pid (people.getD j ⟨"", ""⟩).pid))).toFinset.card
      ≤ ((List.range people.length).flatMap
      (fun j => (List.range j).map
        (fun i => mkKey (people.getD i ⟨"", ""⟩).pid (people.getD j ⟨"", ""⟩).pid))).length :=
    List.toFinset_card_le _
  have h3 := length_keys_aux
    (fun i j => mkKey (people.getD i ⟨"", ""⟩).pid (people.getD j ⟨"", ""⟩).pid) people.length
  have h4 : (((List.range people.length).flatMap
      (fun j => (List.range j).map
        (fun i => mkKey (people.getD i ⟨"", ""⟩).pid (people.getD j ⟨"", ""⟩).pid))).toFinset
      \ (past.toFinset : Finset (String × String))).card
      ≤ ((List.range people.length).flatMap
      (fun j => (List.range j).map
        (fun i => mkKey (people.getD i ⟨"", ""⟩).pid (people.getD j ⟨"", ""⟩).pid))).toFinset.card :=
    Finset.card_le_card (Finset.sdiff_subset)
  omega

end MbtiMatch

namespace MbtiMatch

theorem insertionSort_filter_score (s : Nat) :
    ∀ (l : List (Nat × Person × Person)),
      (List.insertionSort candLE l).filter (fun c => decide (c.1 = s))
        = l.filter (fun c => decide (c.1 = s)) := by
  intro l
  induction l with
  | nil => rfl
  | cons a l ih =>
    rw [List.insertionSort_cons_eq_take_drop]
    rw [List.filter_append]
    have hsplit : (List.insertionSort candLE l).takeWhile (fun b => ¬candLE a b)
          ++ (List.insertionSort candLE l).dropWhile (fun b => ¬candLE a b)
        = List.insertionSort candLE l := List.takeWhile_append_dropWhile _ _
    have htake : ((List.insertionSort candLE l).takeWhile
        (fun b => ¬candLE a b)).filter (fun c => decide (c.1 = s))
        = ((List.insertionSort candLE l).takeWhile
        (fun b => ¬candLE a b)).filter (fun c => decide (c.1 = s)) := rfl
    by_cases hs : a.1 = s
    · have htk : ∀ c ∈ (List.insertionSort candLE l).takeWhile (fun b => ¬candLE a b),
          ¬(decide (c.1 = s) = true) := by
        intro c hc
        have hp := List.mem_takeWhile_imp hc
        have hlt : ¬ candLE a c := by simpa using hp
        unfold candLE at hlt
        simp only [decide_eq_true_eq]
        omega
      rw [List.filter_eq_nil_iff.mpr htk, List.nil_append]
      rw [List.filter_cons_of_pos (by simpa using hs)]
      have hdrop : ((List.insertionSort candLE l).dropWhile
          (fun b => ¬candLE a b)).filter (fun c => decide (c.1 = s))
          = (List.insertionSort candLE l).filter (fun c => decide (c.1 = s)) := by
        conv_rhs => rw [← hsplit]
        rw [List.filter_append, List.filter_eq_nil_iff.mpr htk, List.nil_append]
      rw [hdrop, ih, List.filter_cons_of_pos (by simpa using hs)]
    · rw [List.filter_cons_of_neg (by simpa using hs),
        List.filter_cons_of_neg (by simpa using hs)]
      rw [← List.filter_append, hsplit, ih]

end MbtiMatch

/-- C9: `generate_candidate_pairs` returns the candidates sorted by
descending similarity score, as a permutation of the nested-loop
enumeration `candidateEnum`, and within each score class the original
enumeration order is preserved (stability), so the ordering is
reproducible from the participant ordering alone. -/
theorem claimC9_sorted_stable (people : List MbtiMatch.Person)
    (past : List (String × String)) :
    List.Sorted MbtiMatch.candLE (MbtiMatch.generate_candidate_pairs people past)
    ∧ (MbtiMatch.generate_candidate_pairs people past).Perm
        (MbtiMatch.candidateEnum people past)
    ∧ ∀ s : Nat,
        (MbtiMatch.generate_candidate_pairs people past).filter (fun c => decide (c.1 = s))
          = (MbtiMatch.candidateEnum people past).filter (fun c => decide (c.1 = s)) :=
  ⟨List.sorted_insertionSort MbtiMatch.candLE _,
   MbtiMatch.generate_candidate_pairs_perm people past,
   fun s => MbtiMatch.insertionSort_filter_score s _⟩

/-- C1: the matcher `build_round` never emits a pair whose unordered key
is already in the supplied history, and (for a roster with unique pids)
never uses a participant id twice within the produced round; over a whole
run of the multi-round driver `MbtiMatch.generate_rounds`, the rounds are
pairwise disjoint in unordered id keys, so no pair appears in more than
one round. -/
theorem claimC1_no_repeat_no_reuse :
    (∀ (people : List MbtiMatch.Person) (past : List (String × String)),
      ∀ pr ∈ (MbtiMatch.build_round people past).1, mkKey pr.1.pid pr.2.pid ∉ past)
    ∧ (∀ (people : List MbtiMatch.Person) (past : List (String × String)),
        (people.map MbtiMatch.Person.pid).Nodup →
        ((MbtiMatch.build_round people past).1.flatMap
          (fun pr => [pr.1.pid, pr.2.pid])).Nodup)
    ∧ (∀ (ids : List String) (R : Nat) (parts : List (String × String)),
        List.Pairwise (fun r1 r2 => ∀ p ∈ r1, ∀ q ∈ r2, mkKey p.1 p.2 ≠ mkKey q.1 q.2)
          (MbtiMatch.generate_rounds ids R parts)) :=
  ⟨MbtiMatch.build_round_key_not_past,
   fun people past hnd => MbtiMatch.build_round_pids_nodup people past hnd,
   fun ids R parts => MbtiMatch.roundsLoop_pairwise_disjoint R _ []⟩

/-- Witness for C1 at a 3-person roster with the pair (a, c) already in
history, and a short driver run. -/
theorem claimC1_no_repeat_no_reuse_witness :
    (([⟨"a", "INTJ"⟩, ⟨"b", "ENFP"⟩, ⟨"c", "INTJ"⟩] : List MbtiMatch.Person).map
        MbtiMatch.Person.pid).Nodup
    ∧ (∀ pr ∈ (MbtiMatch.build_round [⟨"a", "INTJ"⟩, ⟨"b", "ENFP"⟩, ⟨"c", "INTJ"⟩]
          [mkKey "a" "c"]).1, mkKey pr.1.pid pr.2.pid ∉ [mkKey "a" "c"])
    ∧ ((MbtiMatch.build_round [⟨"a", "INTJ"⟩, ⟨"b", "ENFP"⟩, ⟨"c", "INTJ"⟩]
          [mkKey "a" "c"]).1.flatMap (fun pr => [pr.1.pid, pr.2.pid])).Nodup
    ∧ List.Pairwise (fun r1 r2 => ∀ p ∈ r1, ∀ q ∈ r2, mkKey p.1 p.2 ≠ mkKey q.1 q.2)
        (MbtiMatch.generate_rounds ["a", "b"] 3 [("a", "INTJ"), ("b", "ENFP")]) :=
  ⟨by decide,
   fun pr hpr => claimC1_no_repeat_no_reuse.1 _ _ pr hpr,
   claimC1_no_repeat_no_reuse.2.1 _ _ (by decide),
   claimC1_no_repeat_no_reuse.2.2 ["a", "b"] 3 [("a", "INTJ"), ("b", "ENFP")]⟩

/-- C7: every participant left unmatched by `build_round` is observable in
its return value: the leftovers are exactly the people whose pid is not
used in the produced round; every input person is either in the round or
in the leftovers; and the driver never invents or loses ids — every id in
its returned rounds comes from the input, and it returns at most the
requested number of rounds. -/
theorem claimC7_leftovers_observable :
    (∀ (people : List MbtiMatch.Person) (past : List (String × String)),
      (MbtiMatch.build_round people past).2
        = people.filter (fun p => decide (p.pid ∉
            (MbtiMatch.build_round people past).1.flatMap (fun pr => [pr.1.pid, pr.2.pid]))))
    ∧ (∀ (people : List MbtiMatch.Person) (past : List (String × String)),
        ∀ p ∈ people,
          p ∈ (MbtiMatch.build_round people past).2
          ∨ p.pid ∈ (MbtiMatch.build_round people past).1.flatMap
              (fun pr => [pr.1.pid, pr.2.pid]))
    ∧ (∀ (ids : List String) (R : Nat) (parts : List (String × String)),
        (MbtiMatch.generate_rounds ids R parts).length ≤ R
        ∧ ∀ r ∈ MbtiMatch.generate_rounds ids R parts, ∀ q ∈ r, q.1 ∈ ids ∧ q.2 ∈ ids) := by
  refine ⟨MbtiMatch.build_round_leftovers, ?_, ?_⟩
  · intro people past p hp
    by_cases hpid : p.pid ∈ (MbtiMatch.build_round people past).1.flatMap
        (fun pr => [pr.1.pid, pr.2.pid])
    · right; exact hpid
    · left
      rw [MbtiMatch.build_round_leftovers]
      rw [List.mem_filter]
      exact ⟨hp, decide_eq_true hpid⟩
  · intro ids R parts
    constructor
    · exact MbtiMatch.roundsLoop_length_le R _ []
    · intro r hr q hq
      have := MbtiMatch.roundsLoop_ids R (MbtiMatch.buildPeople ids parts) [] r hr q hq
      rw [MbtiMatch.buildPeople_pids] at this
      exact this

/-- Witness for C7 at a 3-person roster with empty history and a short
driver run. -/
theorem claimC7_leftovers_observable_witness :
    ((MbtiMatch.build_round [⟨"a", "INTJ"⟩, ⟨"b", "ENFP"⟩, ⟨"c", "INTJ"⟩] []).2
        = ([⟨"a", "INTJ"⟩, ⟨"b", "ENFP"⟩, ⟨"c", "INTJ"⟩] : List MbtiMatch.Person).filter
            (fun p => decide (p.pid ∉
              (MbtiMatch.build_round [⟨"a", "INTJ"⟩, ⟨"b", "ENFP"⟩, ⟨"c", "INTJ"⟩] []).1.flatMap
                (fun pr => [pr.1.pid, pr.2.pid]))))
    ∧ (∀ p ∈ ([⟨"a", "INTJ"⟩, ⟨"b", "ENFP"⟩, ⟨"c", "INTJ"⟩] : List MbtiMatch.Person),
        p ∈ (MbtiMatch.build_round [⟨"a", "INTJ"⟩, ⟨"b", "ENFP"⟩, ⟨"c", "INTJ"⟩] []).2
        ∨ p.pid ∈ (MbtiMatch.build_round
            [⟨"a", "INTJ"⟩, ⟨"b", "ENFP"⟩, ⟨"c", "INTJ"⟩] []).1.flatMap
            (fun pr => [pr.1.pid, pr.2.pid]))
    ∧ ((MbtiMatch.generate_rounds ["a", "b", "c"] 4 [("a", "INTJ")]).length ≤ 4
      ∧ ∀ r ∈ MbtiMatch.generate_rounds ["a", "b", "c"] 4 [("a", "INTJ")],
          ∀ q ∈ r, q.1 ∈ (["a", "b", "c"] : List String) ∧ q.2 ∈ (["a", "b", "c"] : List String)) :=
  ⟨claimC7_leftovers_observable.1 _ _,
   fun p hp => claimC7_leftovers_observable.2.1 _ [] p hp,
   claimC7_leftovers_observable.2.2 ["a", "b", "c"] 4 [("a", "INTJ")]⟩

/-- C8 counterexample: with six participants carrying identical (empty)
codes — so that every candidate scores 0 and ties are broken by the
enumeration order — the driver produces 7 consecutive non-empty rounds
before the candidate pool is exhausted, exceeding the claimed bound of
n - 1 = 5 iterations. -/
theorem claimC8_counterexample :
    (MbtiMatch.generate_rounds ["A", "B", "C", "D", "E", "F"] 8 []).length = 7
    ∧ ¬((MbtiMatch.generate_rounds ["A", "B", "C", "D", "E", "F"] 8 []).length
        ≤ (["A", "B", "C", "D", "E", "F"] : List String).length - 1) := by
  have h : (MbtiMatch.generate_rounds ["A", "B", "C", "D", "E", "F"] 8 []).length = 7 := by
    decide
  refine ⟨h, ?_⟩
  rw [h]
  decide

/-- C8 amended: the driver `MbtiMatch.generate_rounds` stops within the
requested round count and, because each accepted round adds at least one
fresh unordered key to a history drawn from at most n*(n-1)/2 candidate
keys, it never returns more than n*(n-1)/2 non-empty rounds. -/
theorem claimC8_bounded_by_pair_count (ids : List String) (R : Nat)
    (parts : List (String × String)) :
    (MbtiMatch.generate_rounds ids R parts).length ≤ R
    ∧ 2 * (MbtiMatch.generate_rounds ids R parts).length
        ≤ ids.length * (ids.length - 1) := by
  constructor
  · exact MbtiMatch.roundsLoop_length_le R _ []
  · have h := MbtiMatch.roundsLoop_le_pair_count (MbtiMatch.buildPeople ids parts) R []
    have hlen : (MbtiMatch.buildPeople ids parts).length = ids.length := by
      unfold MbtiMatch.buildPeople
      simp
    rw [hlen] at h
    exact h

/-- C10: an id in the input list but absent from the participants mapping
is not an error and is not dropped: `buildPeople` gives it the empty
category code, the empty code scores similarity 0 against every code, and
such a person stays eligible for pairing — every index pair whose
unordered key is not in the history appears among the candidates. -/
theorem claimC10_missing_id_tolerated (ids : List String)
    (parts : List (String × String)) (pid : String)
    (hmem : pid ∈ ids) (habs : ∀ kv ∈ parts, kv.1 ≠ pid) :
    MbtiMatch.Person.mk pid "" ∈ MbtiMatch.buildPeople ids parts
    ∧ (∀ s : String, MbtiMatch.mbti_similarity "" s = 0 ∧ MbtiMatch.mbti_similarity s "" = 0)
    ∧ (∀ (people : List MbtiMatch.Person) (past : List (String × String)) (i j : Nat),
        i < j → j < people.length →
        mkKey (people.getD i ⟨"", ""⟩).pid (people.getD j ⟨"", ""⟩).pid ∉ past →
        (MbtiMatch.mbti_similarity (people.getD i ⟨"", ""⟩).mbti
            (people.getD j ⟨"", ""⟩).mbti,
          people.getD i ⟨"", ""⟩, people.getD j ⟨"", ""⟩)
          ∈ MbtiMatch.generate_candidate_pairs people past) := by
  refine ⟨?_, ?_, ?_⟩
  · unfold MbtiMatch.buildPeople
    rw [List.mem_map]
    refine ⟨pid, hmem, ?_⟩
    have hfind : parts.find? (fun kv => kv.1 == pid) = none := by
      rw [List.find?_eq_none]
      intro kv hkv
      simpa using habs kv hkv
    rw [hfind]
    rfl
  · intro s
    constructor
    · have h1 : MbtiMatch.mbti_similarity "" s
          = if (MbtiMatch.normMbti "").length ≠ 4 ∨ (MbtiMatch.normMbti s).length ≠ 4 then 0
            else ((MbtiMatch.normMbti "").data.zip (MbtiMatch.normMbti s).data).countP
              (fun p => p.1 == p.2) := rfl
      rw [h1, if_pos (Or.inl (by decide))]
    · have h1 : MbtiMatch.mbti_similarity s ""
          = if (MbtiMatch.normMbti s).length ≠ 4 ∨ (MbtiMatch.normMbti "").length ≠ 4 then 0
            else ((MbtiMatch.normMbti s).data.zip (MbtiMatch.normMbti "").data).countP
              (fun p => p.1 == p.2) := rfl
      rw [h1, if_pos (Or.inr (by decide))]
  · intro people past i j hij hj hkey
    rw [MbtiMatch.generate_candidate_pairs_mem]
    exact MbtiMatch.candidateEnum_mem_of people past i j hij hj hkey

/-- Witness for C10: the id "x" is missing from the mapping, still gets
paired data built, and the candidate list for the resulting two-person
roster contains the (score 0) pair. -/
theorem claimC10_missing_id_tolerated_witness :
    (("x" : String) ∈ (["x", "y"] : List String)
      ∧ ∀ kv ∈ ([("y", "INTJ")] : List (String × String)), kv.1 ≠ "x")
    ∧ (MbtiMatch.Person.mk "x" "" ∈ MbtiMatch.buildPeople ["x", "y"] [("y", "INTJ")]
      ∧ (∀ s : String, MbtiMatch.mbti_similarity "" s = 0
          ∧ MbtiMatch.mbti_similarity s "" = 0)
      ∧ (∀ (people : List MbtiMatch.Person) (past : List (String × String)) (i j : Nat),
          i < j → j < people.length →
          mkKey (people.getD i ⟨"", ""⟩).pid (people.getD j ⟨"", ""⟩).pid ∉ past →
          (MbtiMatch.mbti_similarity (people.getD i ⟨"", ""⟩).mbti
              (people.getD j ⟨"", ""⟩).mbti,
            people.getD i ⟨"", ""⟩, people.getD j ⟨"", ""⟩)
            ∈ MbtiMatch.generate_candidate_pairs people past)) :=
  ⟨⟨by decide, by decide⟩,
    claimC10_missing_id_tolerated ["x", "y"] [("y", "INTJ")] "x" (by decide) (by decide)⟩

namespace VerifyMatches

theorem find_duplicates_mem (m : List ((String × String) × List PairOccurrence))
    (k : String × String) (v : List PairOccurrence) :
    (k, v) ∈ find_duplicates m ↔ ((k, v) ∈ m ∧ 1 < v.length) := by
  unfold find_duplicates
  rw [List.mem_filter]
  simp

theorem collect_two_files (f1 f2 : MdFile) (a b t1 t2 : String) (l1 l2 : Nat)
    (hn1 : PyStr.pyLowerS f1.name ≠ "license.md")
    (hs1 : (".md" : String).data.isSuffixOf f1.name.data = true)
    (hn2 : PyStr.pyLowerS f2.name ≠ "license.md")
    (hs2 : (".md" : String).data.isSuffixOf f2.name.data = true)
    (hp1 : iter_pairs_in_file f1 = [⟨a, b, f1.name, l1, t1⟩])
    (hp2 : iter_pairs_in_file f2 = [⟨b, a, f2.name, l2, t2⟩]) :
    find_duplicates (collect_pairs [f1, f2] ".md")
      = [(mkKey a b, [⟨a, b, f1.name, l1, t1⟩, ⟨b, a, f2.name, l2, t2⟩])] := by
  have hcollect : collect_pairs [f1, f2] ".md"
      = [(mkKey a b, [⟨a, b, f1.name, l1, t1⟩, ⟨b, a, f2.name, l2, t2⟩])] := by
    unfold collect_pairs
    simp only [List.foldl_cons, List.foldl_nil, if_neg hn1, if_neg hn2, hs1, hs2,
      Bool.not_true, Bool.false_eq_true, if_false, hp1, hp2]
    unfold addOcc
    simp only [List.foldl_cons, List.foldl_nil, List.any_nil, Bool.false_eq_true, if_false,
      List.nil_append, List.any_cons, List.any_nil, Bool.or_false]
    have hk : mkKey b a = mkKey a b := mkKey_comm b a
    simp only [hk, beq_self_eq_true, if_true, List.map_cons, List.map_nil, if_pos rfl]
    rfl
  rw [hcollect]
  unfold find_duplicates
  simp

end VerifyMatches

/-- C6: `find_duplicates` keeps exactly the entries whose occurrence list
has more than one element; and because the dict key is the unordered pair
of normalized tokens, two scanned files each contributing the same id
pair — in different textual shapes and in either order — collapse to
exactly one duplicate key carrying both occurrences. -/
theorem claimC6_one_key_two_occurrences :
    (∀ (m : List ((String × String) × List VerifyMatches.PairOccurrence))
        (k : String × String) (v : List VerifyMatches.PairOccurrence),
      (k, v) ∈ VerifyMatches.find_duplicates m ↔ ((k, v) ∈ m ∧ 1 < v.length))
    ∧ (∀ (f1 f2 : VerifyMatches.MdFile) (a b t1 t2 : String) (l1 l2 : Nat),
        PyStr.pyLowerS f1.name ≠ "license.md" →
        (".md" : String).data.isSuffixOf f1.name.data = true →
        PyStr.pyLowerS f2.name ≠ "license.md" →
        (".md" : String).data.isSuffixOf f2.name.data = true →
        VerifyMatches.iter_pairs_in_file f1 = [⟨a, b, f1.name, l1, t1⟩] →
        VerifyMatches.iter_pairs_in_file f2 = [⟨b, a, f2.name, l2, t2⟩] →
        VerifyMatches.find_duplicates (VerifyMatches.collect_pairs [f1, f2] ".md")
          = [(mkKey a b, [⟨a, b, f1.name, l1, t1⟩, ⟨b, a, f2.name, l2, t2⟩])]) :=
  ⟨VerifyMatches.find_duplicates_mem,
   fun f1 f2 a b t1 t2 l1 l2 hn1 hs1 hn2 hs2 hp1 hp2 =>
     VerifyMatches.collect_two_files f1 f2 a b t1 t2 l1 l2 hn1 hs1 hn2 hs2 hp1 hp2⟩

/-- Witness for C6: a table row `| 1 | alice | bob |` in one file and a
bullet `- bob & alice` in another (reversed id order) produce exactly one
duplicate key with two occurrences. -/
theorem claimC6_one_key_two_occurrences_witness :
    (PyStr.pyLowerS "round_1.md" ≠ "license.md"
      ∧ (".md" : String).data.isSuffixOf ("round_1.md" : String).data = true
      ∧ PyStr.pyLowerS "round_2.md" ≠ "license.md"
      ∧ (".md" : String).data.isSuffixOf ("round_2.md" : String).data = true
      ∧ VerifyMatches.iter_pairs_in_file ⟨"round_1.md", ["# Round 1", "| 1 | alice | bob |"]⟩
          = [⟨"alice", "bob", "round_1.md", 2, "| 1 | alice | bob |"⟩]
      ∧ VerifyMatches.iter_pairs_in_file ⟨"round_2.md", ["- bob & alice"]⟩
          = [⟨"bob", "alice", "round_2.md", 1, "- bob & alice"⟩])
    ∧ VerifyMatches.find_duplicates
        (VerifyMatches.collect_pairs
          [⟨"round_1.md", ["# Round 1", "| 1 | alice | bob |"]⟩,
           ⟨"round_2.md", ["- bob & alice"]⟩] ".md")
        = [(mkKey "alice" "bob",
            [⟨"alice", "bob", "round_1.md", 2, "| 1 | alice | bob |"⟩,
             ⟨"bob", "alice", "round_2.md", 1, "- bob & alice"⟩])] :=
  ⟨⟨by decide, by decide, by decide, by decide, by decide, by decide⟩,
   claimC6_one_key_two_occurrences.2
     ⟨"round_1.md", ["# Round 1", "| 1 | alice | bob |"]⟩
     ⟨"round_2.md", ["- bob & alice"]⟩
     "alice" "bob" "| 1 | alice | bob |" "- bob & alice" 2 1
     (by decide) (by decide) (by decide) (by decide) (by decide) (by decide)⟩
